import Mathlib

/-!
# workpool: the per-worker ring, the wait barrier and the steal scan

A shallow embedding of `src/main.c`.

* `uint64_t` counters (`head`, `tail`, `tasks_done`, `tasks_total`) are natural
  numbers and every increment and subtraction is taken modulo `2^64`.
* `int` values that the program keeps non-negative (`idx`, `thread_count`)
  are natural numbers.
* A `Thread *` is the index of the worker in `pool->threads`; a `TPoolTask *`
  into a ring is the pair (worker, slot).
* `malloc` returns a block of unspecified content: the content is a parameter
  of `tpool_init`.  `calloc` returns zeroed slots.
* Mutexes and condition variables carry no data.  A sequential run never
  contends for a lock, so `mutex_lock`/`mutex_unlock` are no-ops, the result of
  `mutex_trylock` is read from an oracle, and `cond_wait` on a pool whose other
  threads are not running returns only spuriously, a given number of times,
  and then never (`Outcome.parked`).
-/

namespace Workpool

/-! ## Data model -/

/-- Number of values of a `uint64_t`. -/
def U64 : Nat := 2 ^ 64

/-- Line 12: `#define THREAD_QUEUE_CAP 16000`. -/
def THREAD_QUEUE_CAP : Nat := 16000

/-- Lines 14-17: a task is a function pointer and an opaque argument
(both are addresses; `0` is `NULL`). -/
structure TPoolTask where
  do_work : Nat
  args : Nat
deriving DecidableEq

/-- Lines 19-30: a worker.  `queue` is the slot array `queue[0 .. capacity-1]`
seen as a map from index to cell. -/
structure Thread where
  idx : Nat
  queue : Nat → TPoolTask
  capacity : Nat
  head : Nat
  tail : Nat

/-- Lines 32-43: the pool.  `threads` is the worker array seen as a map from
index to worker; entries `0 .. thread_count-1` are allocated. -/
structure TPool where
  threads : Nat → Thread
  thread_count : Nat
  running : Bool
  tasks_done : Nat
  tasks_total : Nat

/-- A `TPoolTask *` that points into a ring: `&pool->threads[thread].queue[slot]`. -/
structure TaskPtr where
  thread : Nat
  slot : Nat
deriving DecidableEq

/-- Reading `*ptr` in pool state `pool`. -/
def deref (pool : TPool) (ptr : TaskPtr) : TPoolTask :=
  (pool.threads ptr.thread).queue ptr.slot

/-- How a piece of code leaves: it returns with state `s`, the process ends in
`exit(code)` after printing `out` (memory being `s` at that point), or the
calling thread blocks for good in `cond_wait`. -/
inductive Outcome (σ : Type) where
  | ok (s : σ)
  | exited (out : String) (code : Nat) (s : σ)
  | parked (s : σ)

/-- 64-bit subtraction `a - b` of two `uint64_t` values. -/
def sub64 (a b : Nat) : Nat := (a + U64 - b) % U64

/-- 64-bit increment `a++`. -/
def inc64 (a : Nat) : Nat := (a + 1) % U64

/-! ## The ring: `tqueue_push`, `tqueue_pop`, `thread_init` -/

/-- Lines 73-85. -/
def tqueue_push (pool : TPool) (thread : Nat) (task : TPoolTask) : Outcome TPool :=
  let th := pool.threads thread
  if sub64 th.head th.tail ≥ th.capacity then
    Outcome.exited "Task queue is too full!!\n" 1 pool
  else
    let idx := th.head % th.capacity
    let th1 : Thread := { th with queue := Function.update th.queue idx task, head := inc64 th.head }
    Outcome.ok { pool with
      threads := Function.update pool.threads thread th1,
      tasks_total := inc64 pool.tasks_total }

/-- Lines 87-91. -/
def tqueue_push_safe (pool : TPool) (thread : Nat) (task : TPoolTask) : Outcome TPool :=
  tqueue_push pool thread task

/-- Lines 93-102: the result is `NULL` (`none`) or a pointer into the ring. -/
def tqueue_pop (pool : TPool) (thread : Nat) : Option TaskPtr × TPool :=
  let th := pool.threads thread
  if th.tail ≥ th.head then
    (none, pool)
  else
    let idx := th.tail % th.capacity
    (some ⟨thread, idx⟩,
     { pool with threads := Function.update pool.threads thread { th with tail := inc64 th.tail } })

/-- Lines 104-109. -/
def tqueue_pop_safe (pool : TPool) (thread : Nat) : Option TaskPtr × TPool :=
  tqueue_pop pool thread

/-- Lines 222-230: the worker written by `thread_init`; `calloc` hands back
zeroed slots. -/
def thread_init (idx : Nat) : Thread :=
  { idx := idx, queue := fun _ => ⟨0, 0⟩, capacity := THREAD_QUEUE_CAP, head := 0, tail := 0 }

/-- The loop of lines 247-250: `thread_init` on workers `i, i+1, ..` (`n` of them). -/
def init_children : Nat → Nat → (Nat → Thread) → (Nat → Thread)
  | 0, _, threads => threads
  | n + 1, i, threads => init_children n (i + 1) (Function.update threads i (thread_init i))

/-- Lines 232-253.  `mem` is what the two `malloc` blocks hold when they are
handed out: `tpool_init` overwrites `thread_count`, `running` and the workers
`0 .. thread_count-1`, and nothing else. -/
def tpool_init (mem : TPool) (child_thread_count : Nat) : TPool :=
  let thread_count := child_thread_count + 1
  let pool : TPool := { mem with thread_count := thread_count, running := true }
  let threads0 := Function.update pool.threads 0 (thread_init 0)
  { pool with threads := init_children (thread_count - 1) 1 threads0 }

/-! ## Running tasks: the drain loop and `tpool_wait` -/

/-- The code behind the function pointers: `procs task cur pool` is what the
call `task.do_work(task.args)`, made on worker `cur` (the caller's
`current_thread`), does to the pool. -/
abbrev Procs := TPoolTask → Nat → TPool → Outcome TPool

/-- A run of pool code on one thread.  `ran` lists the tasks whose body has been
called, in call order, and `loops` counts the iterations of the outer `while`
of `tpool_wait` that were entered; neither is program state. -/
structure Exec where
  pool : TPool
  ran : List TPoolTask
  loops : Nat

/-- Lines 192-200 (the same loop as lines 128-137): pop and run the tasks of the
caller's own ring.  The task is read through the returned pointer when it is
called.  Each iteration uses one unit of `fuel`; `none` is out of fuel. -/
def drain (procs : Procs) (cur : Nat) : Nat → Exec → Option (Outcome Exec)
  | 0, _ => none
  | fuel + 1, s =>
    if (s.pool.threads cur).head > (s.pool.threads cur).tail then
      match tqueue_pop_safe s.pool cur with
      | (none, p1) => some (Outcome.ok { s with pool := p1 })
      | (some ptr, p1) =>
        let task := deref p1 ptr
        match procs task cur p1 with
        | Outcome.ok p2 =>
          drain procs cur fuel
            { s with pool := { p2 with tasks_done := inc64 p2.tasks_done }, ran := s.ran ++ [task] }
        | Outcome.exited out code p2 =>
          some (Outcome.exited out code { s with pool := p2, ran := s.ran ++ [task] })
        | Outcome.parked p2 =>
          some (Outcome.parked { s with pool := p2, ran := s.ran ++ [task] })
    else
      some (Outcome.ok s)

/-- Lines 188-212, run on worker `cur` while no other thread of the pool runs:
then nobody signals `tasks_available`.  `wakes` is the number of times
`cond_wait` (line 207) still returns without a signal, which POSIX allows; once
it is used up, reaching `cond_wait` is `Outcome.parked`.  Every pass through
the drain loop gets `fuel`. -/
def tpool_wait (procs : Procs) (cur fuel : Nat) : Nat → Exec → Option (Outcome Exec)
  | wakes, s =>
    if s.pool.tasks_done < s.pool.tasks_total then
      match drain procs cur fuel { s with loops := s.loops + 1 } with
      | some (Outcome.ok s1) =>
        if s1.pool.tasks_done = s1.pool.tasks_total then some (Outcome.ok s1)
        else
          match wakes with
          | 0 => some (Outcome.parked s1)
          | w + 1 => tpool_wait procs cur fuel w s1
      | other => other
    else
      some (Outcome.ok s)

/-- Lines 312-313: `pool->tasks_total = 0; pool->tasks_done = 0;`. -/
def reset_counters (pool : TPool) : TPool :=
  { pool with tasks_total := 0, tasks_done := 0 }

/-! ## The steal scan of `tpool_worker` -/

/-- How the `for` loop of lines 145-173 is left. -/
inductive ScanEnd where
  | stole
  | quiescent
  | full
  | aborted
deriving DecidableEq

/-- A steal scan: the run, the indices `idx` of the workers it looked at
(line 151), in order, and how it ended. -/
structure Scan where
  exec : Exec
  probes : List Nat
  fin : ScanEnd

/-- Lines 145-173 from iteration `i` on, `n` iterations being left
(`n = thread_count - i`).  `trylock i` is what `mutex_trylock` returns in
iteration `i` (`0`: lock taken). -/
def steal_loop (procs : Procs) (trylock : Nat → Nat) (cur : Nat) :
    Nat → Nat → Nat → Exec → List Nat → Scan
  | 0, _, _, s, probes => ⟨s, probes, ScanEnd.full⟩
  | n + 1, i, idx, s, probes =>
    if s.pool.tasks_done = s.pool.tasks_total then
      ⟨s, probes, ScanEnd.quiescent⟩
    else
      let idx1 := (idx + 1) % s.pool.thread_count
      let probes1 := probes ++ [idx1]
      if (s.pool.threads idx1).head > (s.pool.threads idx1).tail then
        if trylock i ≠ 0 then
          steal_loop procs trylock cur n (i + 1) idx1 s probes1
        else
          match tqueue_pop s.pool idx1 with
          | (none, p1) => steal_loop procs trylock cur n (i + 1) idx1 { s with pool := p1 } probes1
          | (some ptr, p1) =>
            let task := deref p1 ptr
            match procs task cur p1 with
            | Outcome.ok p2 =>
              ⟨{ s with pool := { p2 with tasks_done := inc64 p2.tasks_done }, ran := s.ran ++ [task] },
                probes1, ScanEnd.stole⟩
            | Outcome.exited _ _ p2 =>
              ⟨{ s with pool := p2, ran := s.ran ++ [task] }, probes1, ScanEnd.aborted⟩
            | Outcome.parked p2 =>
              ⟨{ s with pool := p2, ran := s.ran ++ [task] }, probes1, ScanEnd.aborted⟩
      else
        steal_loop procs trylock cur n (i + 1) idx1 s probes1

/-- Lines 142-174: the steal phase of worker `cur`; `none` when the guard of
line 143 is false and no scan is made. -/
def tpool_worker_steal (procs : Procs) (trylock : Nat → Nat) (cur : Nat) (s : Exec) : Option Scan :=
  if s.pool.tasks_done < s.pool.tasks_total ∧
      (s.pool.threads cur).head = (s.pool.threads cur).tail then
    some (steal_loop procs trylock cur s.pool.thread_count 0 (s.pool.threads cur).idx s [])
  else
    none

/-! ## Sequences of ring operations -/

/-- A call on one ring: `tqueue_push(thread, task)` or `tqueue_pop(thread)`. -/
inductive RingOp where
  | push (task : TPoolTask)
  | pop
deriving DecidableEq

/-- The pool together with what each `tqueue_pop` call so far handed back:
`none` for `NULL`, otherwise the task its pointer designates on return. -/
structure RingRun where
  pool : TPool
  popped : List (Option TPoolTask)

/-- One call on ring `thread`. -/
def ring_step (thread : Nat) (s : RingRun) : RingOp → Outcome RingRun
  | RingOp.push task =>
    match tqueue_push s.pool thread task with
    | Outcome.ok p => Outcome.ok { s with pool := p }
    | Outcome.exited out code p => Outcome.exited out code { s with pool := p }
    | Outcome.parked p => Outcome.parked { s with pool := p }
  | RingOp.pop =>
    match tqueue_pop s.pool thread with
    | (none, p) => Outcome.ok { pool := p, popped := s.popped ++ [none] }
    | (some ptr, p) => Outcome.ok { pool := p, popped := s.popped ++ [some (deref p ptr)] }

/-- The calls `ops` on ring `thread`, in order; the run stops at a fatal push. -/
def ring_run (thread : Nat) : RingRun → List RingOp → Outcome RingRun
  | s, [] => Outcome.ok s
  | s, op :: ops =>
    match ring_step thread s op with
    | Outcome.ok s1 => ring_run thread s1 ops
    | other => other

/-- The tasks pushed by `ops`, in order. -/
def pushed : List RingOp → List TPoolTask
  | [] => []
  | RingOp.push task :: ops => task :: pushed ops
  | RingOp.pop :: ops => pushed ops

/-- The tasks handed back by the successful pops, in order. -/
def delivered (popped : List (Option TPoolTask)) : List TPoolTask :=
  popped.filterMap id

/-- The tasks a ring holds, oldest first: slots `tail, tail+1, .., head-1`
modulo `capacity`. -/
def pending (th : Thread) : List TPoolTask :=
  (List.range (th.head - th.tail)).map fun k => th.queue ((th.tail + k) % th.capacity)

/-! ### The bounded first-in-first-out queue the ring is compared with -/

/-- A bounded FIFO queue: at most `cap` items, oldest first. -/
structure Fifo where
  cap : Nat
  items : List TPoolTask

/-- Enqueue at the back; `none` when the queue is full. -/
def Fifo.push (q : Fifo) (task : TPoolTask) : Option Fifo :=
  if q.items.length ≥ q.cap then none else some { q with items := q.items ++ [task] }

/-- Dequeue from the front; the result is `none` exactly when the queue is empty. -/
def Fifo.pop (q : Fifo) : Option TPoolTask × Fifo :=
  match q.items with
  | [] => (none, q)
  | task :: rest => (some task, { q with items := rest })

/-- The calls `ops` on the FIFO queue, with the result of every pop; `none` when
a push finds the queue full. -/
def fifo_run : Fifo → List (Option TPoolTask) → List RingOp → Option (Fifo × List (Option TPoolTask))
  | q, out, [] => some (q, out)
  | q, out, RingOp.push task :: ops =>
    match q.push task with
    | none => none
    | some q1 => fifo_run q1 out ops
  | q, out, RingOp.pop :: ops => fifo_run q.pop.2 (out ++ [q.pop.1]) ops

/-! ## The pool as a transition system -/

/-- The steps that touch the counters and the rings: a `tqueue_push` on a ring
(lines 73-85), a `tqueue_pop` on a ring by its owner, a thief or the host
(lines 129, 159, 193), and the `pool->tasks_done++` that follows the body of a
popped task (lines 135, 166, 199). -/
inductive PoolStep where
  | push (thread : Nat) (task : TPoolTask)
  | pop (thread : Nat)
  | complete
deriving DecidableEq

/-- The pool and the number of tasks popped whose `tasks_done++` is still to
come (not program state). -/
structure Sys where
  pool : TPool
  in_flight : Nat

/-- One step; `none` when the step cannot be taken: the push is fatal, the pop
returns `NULL`, no popped task is left to complete, or the ring is not one of
the pool. -/
def pool_step (s : Sys) : PoolStep → Option Sys
  | PoolStep.push thread task =>
    if thread < s.pool.thread_count then
      match tqueue_push s.pool thread task with
      | Outcome.ok p => some { s with pool := p }
      | _ => none
    else none
  | PoolStep.pop thread =>
    if thread < s.pool.thread_count then
      match tqueue_pop s.pool thread with
      | (some _, p) => some { pool := p, in_flight := s.in_flight + 1 }
      | (none, _) => none
    else none
  | PoolStep.complete =>
    if 0 < s.in_flight then
      some { pool := { s.pool with tasks_done := inc64 s.pool.tasks_done },
             in_flight := s.in_flight - 1 }
    else none

/-- A sequence of steps. -/
def pool_run : Sys → List PoolStep → Option Sys
  | s, [] => some s
  | s, st :: steps =>
    match pool_step s st with
    | some s1 => pool_run s1 steps
    | none => none

/-- Number of push steps in a sequence. -/
def push_count : List PoolStep → Nat
  | [] => 0
  | PoolStep.push _ _ :: steps => push_count steps + 1
  | _ :: steps => push_count steps

/-- Tasks queued in the rings of the pool: the sum of `head - tail`. -/
def queued (pool : TPool) : Nat :=
  ∑ i in Finset.range pool.thread_count, ((pool.threads i).head - (pool.threads i).tail)

/-! ## Concrete inputs -/

/-- The pool right after `tpool_init(0)` when the counters happen to be zero:
one worker, the host, with its fresh ring. -/
def host_pool : TPool := ⟨fun i => thread_init i, 1, true, 0, 0⟩

/-- Three pushes and four pops, the last pop on the empty ring, then a push. -/
def demo_ops : List RingOp :=
  [RingOp.push ⟨1, 10⟩, RingOp.push ⟨1, 20⟩, RingOp.pop, RingOp.push ⟨1, 30⟩,
   RingOp.pop, RingOp.pop, RingOp.pop, RingOp.push ⟨1, 40⟩]

/-- The state an outcome carries. -/
def Outcome.state {σ : Type} : Outcome σ → σ
  | Outcome.ok s => s
  | Outcome.exited _ _ s => s
  | Outcome.parked s => s

/-- As many as `n` rounds of "push `task`, then pop", followed by `rest`. -/
def rounds (task : TPoolTask) : Nat → List RingOp → List RingOp
  | 0, rest => rest
  | n + 1, rest => RingOp.push task :: RingOp.pop :: rounds task n rest

/-- A run that makes `2^64` pushes and never holds more than one task:
`2^64 - 1` rounds of push and pop, then one more push. -/
def wrap_ops : List RingOp := rounds ⟨1, 1⟩ (U64 - 1) [RingOp.push ⟨1, 1⟩]

/-- Task bodies that leave the pool alone: they submit nothing and return. -/
def inert : Procs := fun _ _ pool => Outcome.ok pool

/-- The host's pool after two tasks were pushed on its fresh ring. -/
def two_queued : TPool :=
  (ring_run 0 ⟨host_pool, []⟩ [RingOp.push ⟨1, 10⟩, RingOp.push ⟨1, 20⟩]).state.pool

/-- A `malloc` block whose bytes are zero except the word that becomes
`tasks_total`, which holds 1. -/
def stale_mem : TPool := ⟨fun _ => ⟨0, fun _ => ⟨0, 0⟩, 0, 0, 0⟩, 0, false, 0, 1⟩

/-- As many as `n` rounds of "push `task` on ring 0, pop it, complete it",
followed by `rest`. -/
def pool_rounds (task : TPoolTask) : Nat → List PoolStep → List PoolStep
  | 0, rest => rest
  | n + 1, rest =>
    PoolStep.push 0 task :: PoolStep.pop 0 :: PoolStep.complete :: pool_rounds task n rest

/-- A run of `2^64` pushes: `2^64 - 1` rounds of push, pop and complete, then
one more push. -/
def wrap_steps : List PoolStep := pool_rounds ⟨1, 1⟩ (U64 - 1) [PoolStep.push 0 ⟨1, 1⟩]

/-- Two pushes on ring 0 and one on ring 1, with pops (one of them of ring 0's
task while another is in flight) and completions in between. -/
def demo_steps : List PoolStep :=
  [PoolStep.push 0 ⟨1, 10⟩, PoolStep.push 0 ⟨1, 20⟩, PoolStep.pop 0, PoolStep.push 1 ⟨1, 30⟩,
   PoolStep.pop 0, PoolStep.complete, PoolStep.pop 1]

/-- The pool right after `tpool_init(1)` when the counters happen to be zero. -/
def pair_pool : TPool := ⟨fun i => thread_init i, 2, true, 0, 0⟩

/-- Three workers with fresh rings and one task outstanding that is queued
nowhere (it is being run). -/
def idle_trio : TPool := ⟨fun i => thread_init i, 3, true, 0, 1⟩

/-! ## Predicates used to state the results -/

/-- What ties a ring to its history when no counter has wrapped: `P` lists the
tasks pushed so far and `popped` the results of the pops so far.  `head` counts
the pushes, `tail` the successful pops, the ring invariant
`tail ≤ head ≤ tail + capacity` holds, the pops handed back the first `tail`
pushed tasks in order, and the task pushed as number `k` (from 0) sits in slot
`k % capacity` for `tail ≤ k < head`. -/
structure RingInv (th : Thread) (popped : List (Option TPoolTask)) (P : List TPoolTask) : Prop where
  head_eq : th.head = P.length
  tail_eq : th.tail = (delivered popped).length
  tail_le : th.tail ≤ th.head
  size_le : th.head - th.tail ≤ th.capacity
  delivered_eq : delivered popped = P.take th.tail
  slots : ∀ k, th.tail ≤ k → k < th.head → P[k]? = some (th.queue (k % th.capacity))

/-- What holds of the pool as long as no counter wraps, `r` being a bound on
the pushes still to come: the outstanding count `tasks_total - tasks_done` is
made of the queued tasks and the tasks in flight, and every ring has
`tail ≤ head`. -/
structure PoolInv (s : Sys) (r : Nat) : Prop where
  account : s.pool.tasks_total = s.pool.tasks_done + queued s.pool + s.in_flight
  total_lt : s.pool.tasks_total + r < U64
  rings : ∀ i, i < s.pool.thread_count →
    (s.pool.threads i).tail ≤ (s.pool.threads i).head ∧ (s.pool.threads i).head + r < U64

/-! ## Basic facts about the 64-bit counters and the two ring operations -/

theorem inc64_of_lt {a : Nat} (h : a + 1 < U64) : inc64 a = a + 1 := by
  unfold inc64
  exact Nat.mod_eq_of_lt h

theorem sub64_of_le {a b : Nat} (hba : b ≤ a) (ha : a < U64) : sub64 a b = a - b := by
  unfold sub64
  have h1 : a + U64 - b = (a - b) + U64 := by omega
  rw [h1, Nat.add_mod_right]
  exact Nat.mod_eq_of_lt (by omega)

theorem tqueue_push_fatal {pool : TPool} {thread : Nat} (task : TPoolTask)
    (h : sub64 (pool.threads thread).head (pool.threads thread).tail ≥ (pool.threads thread).capacity) :
    tqueue_push pool thread task = Outcome.exited "Task queue is too full!!\n" 1 pool := by
  unfold tqueue_push
  simp only [h, if_true, ge_iff_le]

theorem tqueue_push_ok {pool : TPool} {thread : Nat} (task : TPoolTask)
    (h : sub64 (pool.threads thread).head (pool.threads thread).tail < (pool.threads thread).capacity) :
    tqueue_push pool thread task = Outcome.ok { pool with
      threads := Function.update pool.threads thread
        { (pool.threads thread) with
          queue := Function.update (pool.threads thread).queue
            ((pool.threads thread).head % (pool.threads thread).capacity) task,
          head := inc64 (pool.threads thread).head },
      tasks_total := inc64 pool.tasks_total } := by
  unfold tqueue_push
  have h1 : ¬ (sub64 (pool.threads thread).head (pool.threads thread).tail
      ≥ (pool.threads thread).capacity) := by omega
  simp only [h1, if_false]

theorem tqueue_pop_null {pool : TPool} {thread : Nat}
    (h : (pool.threads thread).tail ≥ (pool.threads thread).head) :
    tqueue_pop pool thread = (none, pool) := by
  unfold tqueue_pop
  simp only [h, if_true, ge_iff_le]

theorem tqueue_pop_some {pool : TPool} {thread : Nat}
    (h : (pool.threads thread).tail < (pool.threads thread).head) :
    tqueue_pop pool thread =
      (some ⟨thread, (pool.threads thread).tail % (pool.threads thread).capacity⟩,
       { pool with
         threads := Function.update pool.threads thread
           { (pool.threads thread) with tail := inc64 (pool.threads thread).tail } }) := by
  unfold tqueue_pop
  have h1 : ¬ ((pool.threads thread).tail ≥ (pool.threads thread).head) := by omega
  simp only [h1, if_false]

/-! ## C7: what a push that is not fatal changes, and what it leaves alone -/

/-- C7.  When `head - tail < capacity` (the 64-bit difference the code tests,
which is the plain difference whenever `tail ≤ head`),
`tqueue_push` returns; slot `head_old % capacity` of the ring then holds the
task, `head` and the pool's `tasks_total` have been incremented by one (the
`uint64_t` increment, which is `+ 1` unless the counter stood at `2^64 - 1`),
and `tail`, `capacity`, every other slot of the ring, every other worker and
`tasks_done` (as well as `idx`, `thread_count` and `running`) are as before. -/
theorem tqueue_push_post_frame (pool : TPool) (thread : Nat) (task : TPoolTask)
    (h : sub64 (pool.threads thread).head (pool.threads thread).tail < (pool.threads thread).capacity) :
    ∃ pool1, tqueue_push pool thread task = Outcome.ok pool1 ∧
      (pool1.threads thread).queue ((pool.threads thread).head % (pool.threads thread).capacity) = task ∧
      (pool1.threads thread).head = inc64 (pool.threads thread).head ∧
      ((pool.threads thread).head + 1 < U64 →
        (pool1.threads thread).head = (pool.threads thread).head + 1) ∧
      pool1.tasks_total = inc64 pool.tasks_total ∧
      (pool.tasks_total + 1 < U64 → pool1.tasks_total = pool.tasks_total + 1) ∧
      (pool1.threads thread).tail = (pool.threads thread).tail ∧
      (pool1.threads thread).capacity = (pool.threads thread).capacity ∧
      (pool1.threads thread).idx = (pool.threads thread).idx ∧
      (∀ j, j ≠ (pool.threads thread).head % (pool.threads thread).capacity →
        (pool1.threads thread).queue j = (pool.threads thread).queue j) ∧
      (∀ k, k ≠ thread → pool1.threads k = pool.threads k) ∧
      pool1.tasks_done = pool.tasks_done ∧
      pool1.thread_count = pool.thread_count ∧
      pool1.running = pool.running := by
  refine ⟨_, tqueue_push_ok task h, ?_⟩
  simp only [Function.update_same]
  refine ⟨trivial, trivial, inc64_of_lt, trivial, inc64_of_lt, trivial, trivial, trivial, ?_, ?_,
    trivial, trivial, trivial⟩
  · intro j hj
    exact Function.update_noteq hj _ _
  · intro k hk
    exact Function.update_noteq hk _ _

/-- C7 at a concrete input: a push on the fresh ring of worker 0. -/
theorem tqueue_push_post_frame_witness :
    ∃ pool1, tqueue_push ⟨fun i => thread_init i, 1, true, 0, 0⟩ 0 ⟨7, 1⟩ = Outcome.ok pool1 ∧
      (pool1.threads 0).queue 0 = ⟨7, 1⟩ ∧ (pool1.threads 0).head = 1 ∧ pool1.tasks_total = 1 :=
  have h := tqueue_push_post_frame ⟨fun i => thread_init i, 1, true, 0, 0⟩ 0 ⟨7, 1⟩ (by decide)
  h.imp fun _ hp => ⟨hp.1, hp.2.1, hp.2.2.2.1 (by decide), hp.2.2.2.2.2.1 (by decide)⟩

/-! ## C8: waiting right after the counters were reset -/

/-- C8.  With both counters reset to zero, `tpool_wait` returns at once,
whatever the rest of the pool holds and whatever fuel and wake-ups it is
given: no iteration of its loop is entered (`loops`), no task body is called
(`ran`), and the pool -- counters, and every ring with its head, tail and
slots -- is the one it was given. -/
theorem tpool_wait_after_reset (procs : Procs) (cur fuel wakes : Nat) (pool : TPool)
    (ran : List TPoolTask) (loops : Nat) :
    tpool_wait procs cur fuel wakes ⟨reset_counters pool, ran, loops⟩ =
      some (Outcome.ok ⟨reset_counters pool, ran, loops⟩) := by
  unfold tpool_wait
  simp [reset_counters]

/-! ## Runs of ring operations keep `RingInv` -/

theorem mod_ne_of_lt_of_sub_lt {k h c : Nat} (hkh : k < h) (hd : h - k < c) : k % c ≠ h % c := by
  intro he
  have h0 : (h - k) % c = 0 := Nat.sub_mod_eq_zero_of_mod_eq he.symm
  have h1 : c ∣ h - k := Nat.dvd_of_mod_eq_zero h0
  have h2 : c ≤ h - k := Nat.le_of_dvd (by omega) h1
  omega

theorem ring_inv_push {th : Thread} {popped : List (Option TPoolTask)} {P : List TPoolTask}
    (task : TPoolTask) (hinv : RingInv th popped P) (hlt : th.head - th.tail < th.capacity) :
    RingInv { th with queue := Function.update th.queue (th.head % th.capacity) task,
                      head := th.head + 1 } popped (P ++ [task]) where
  head_eq := by simp [hinv.head_eq]
  tail_eq := hinv.tail_eq
  tail_le := Nat.le_succ_of_le hinv.tail_le
  size_le := by
    have := hinv.tail_le
    show th.head + 1 - th.tail ≤ th.capacity
    omega
  delivered_eq := by
    have h1 : th.tail ≤ P.length := by rw [← hinv.head_eq]; exact hinv.tail_le
    show delivered popped = List.take th.tail (P ++ [task])
    rw [List.take_append_of_le_length h1]
    exact hinv.delivered_eq
  slots := by
    intro k hk1 hk2
    show (P ++ [task])[k]? = some (Function.update th.queue (th.head % th.capacity) task (k % th.capacity))
    have hk3 : k < th.head + 1 := hk2
    have hk0 : th.tail ≤ k := hk1
    by_cases hk : k = th.head
    · subst hk
      rw [Function.update_same, hinv.head_eq]
      exact List.getElem?_concat_length P task
    · have hk4 : k < th.head := by omega
      have hne : k % th.capacity ≠ th.head % th.capacity :=
        mod_ne_of_lt_of_sub_lt hk4 (by omega)
      rw [Function.update_noteq hne, List.getElem?_append_left (by rw [← hinv.head_eq]; exact hk4)]
      exact hinv.slots k hk0 hk4

theorem ring_inv_pop {th : Thread} {popped : List (Option TPoolTask)} {P : List TPoolTask}
    (hinv : RingInv th popped P) (hlt : th.tail < th.head) :
    RingInv { th with tail := th.tail + 1 }
      (popped ++ [some (th.queue (th.tail % th.capacity))]) P where
  head_eq := hinv.head_eq
  tail_eq := by simp [delivered, hinv.tail_eq]
  tail_le := hlt
  size_le := by
    have := hinv.size_le
    show th.head - (th.tail + 1) ≤ th.capacity
    omega
  delivered_eq := by
    show delivered (popped ++ [some (th.queue (th.tail % th.capacity))]) = List.take (th.tail + 1) P
    rw [List.take_succ, hinv.slots th.tail (Nat.le_refl _) hlt, ← hinv.delivered_eq]
    simp [delivered]
  slots := by
    intro k hk1 hk2
    exact hinv.slots k (Nat.le_of_succ_le hk1) hk2

theorem ring_inv_pop_null {th : Thread} {popped : List (Option TPoolTask)} {P : List TPoolTask}
    (hinv : RingInv th popped P) : RingInv th (popped ++ [none]) P where
  head_eq := hinv.head_eq
  tail_eq := by simp [delivered, hinv.tail_eq]
  tail_le := hinv.tail_le
  size_le := hinv.size_le
  delivered_eq := by
    rw [← hinv.delivered_eq]
    simp [delivered]
  slots := hinv.slots

theorem pushed_cons (op : RingOp) (ops : List RingOp) :
    pushed (op :: ops) = pushed [op] ++ pushed ops := by
  cases op <;> simp [pushed]

theorem ring_step_inv {thread : Nat} {s s1 : RingRun} {P : List TPoolTask} (op : RingOp)
    (hinv : RingInv (s.pool.threads thread) s.popped P)
    (hb : P.length + (pushed [op]).length < U64)
    (hstep : ring_step thread s op = Outcome.ok s1) :
    RingInv (s1.pool.threads thread) s1.popped (P ++ pushed [op]) := by
  have hle := hinv.tail_le
  have hhead := hinv.head_eq
  cases op with
  | push task =>
    have hb1 : (s.pool.threads thread).head + 1 < U64 := by simpa [pushed, hhead] using hb
    have hsub : sub64 (s.pool.threads thread).head (s.pool.threads thread).tail
        = (s.pool.threads thread).head - (s.pool.threads thread).tail :=
      sub64_of_le hle (by omega)
    by_cases hfull : (s.pool.threads thread).head - (s.pool.threads thread).tail
        < (s.pool.threads thread).capacity
    · have hok := @tqueue_push_ok s.pool thread task (by rw [hsub]; exact hfull)
      simp only [ring_step, hok] at hstep
      cases hstep
      simp only [Function.update_same, inc64_of_lt hb1, pushed]
      exact ring_inv_push task hinv hfull
    · have hfat := @tqueue_push_fatal s.pool thread task (by rw [hsub]; omega)
      simp only [ring_step, hfat] at hstep
      cases hstep
  | pop =>
    have hb1 : (s.pool.threads thread).head < U64 := by simpa [pushed, hhead] using hb
    by_cases hlt : (s.pool.threads thread).tail < (s.pool.threads thread).head
    · have hp := @tqueue_pop_some s.pool thread hlt
      simp only [ring_step, hp] at hstep
      cases hstep
      simp only [deref, Function.update_same, inc64_of_lt (show (s.pool.threads thread).tail + 1 < U64 by omega),
        pushed, List.append_nil]
      exact ring_inv_pop hinv hlt
    · have hp := @tqueue_pop_null s.pool thread (by omega)
      simp only [ring_step, hp] at hstep
      cases hstep
      simp only [pushed, List.append_nil]
      exact ring_inv_pop_null hinv

theorem ring_run_inv (thread : Nat) : ∀ (ops : List RingOp) (s s1 : RingRun) (P : List TPoolTask),
    RingInv (s.pool.threads thread) s.popped P →
    P.length + (pushed ops).length < U64 →
    ring_run thread s ops = Outcome.ok s1 →
    RingInv (s1.pool.threads thread) s1.popped (P ++ pushed ops) := by
  intro ops
  induction ops with
  | nil =>
    intro s s1 P hinv _ hrun
    simp only [ring_run] at hrun
    cases hrun
    simpa [pushed] using hinv
  | cons op ops ih =>
    intro s s1 P hinv hb hrun
    rw [pushed_cons] at hb ⊢
    rw [List.length_append] at hb
    simp only [ring_run] at hrun
    cases hstep : ring_step thread s op with
    | ok s2 =>
      rw [hstep] at hrun
      have h2 := ring_step_inv op hinv (by omega) hstep
      have h3 := ih s2 s1 (P ++ pushed [op]) h2 (by rw [List.length_append]; omega) hrun
      rwa [List.append_assoc] at h3
    | exited out code s2 =>
      rw [hstep] at hrun
      cases hrun
    | parked s2 =>
      rw [hstep] at hrun
      cases hrun

theorem ring_inv_init {th : Thread} (hh : th.head = 0) (ht : th.tail = 0) : RingInv th [] [] where
  head_eq := by simp [hh]
  tail_eq := by simp [delivered, ht]
  tail_le := by omega
  size_le := by omega
  delivered_eq := by simp [delivered]
  slots := by
    intro k _ hk
    omega

theorem ring_step_capacity {thread : Nat} {s s1 : RingRun} (op : RingOp)
    (hstep : ring_step thread s op = Outcome.ok s1) :
    (s1.pool.threads thread).capacity = (s.pool.threads thread).capacity := by
  cases op with
  | push task =>
    by_cases hfull : sub64 (s.pool.threads thread).head (s.pool.threads thread).tail
        < (s.pool.threads thread).capacity
    · simp only [ring_step, tqueue_push_ok task hfull] at hstep
      cases hstep
      simp only [Function.update_same]
    · simp only [ring_step, tqueue_push_fatal task (Nat.le_of_not_lt hfull)] at hstep
      cases hstep
  | pop =>
    by_cases hlt : (s.pool.threads thread).tail < (s.pool.threads thread).head
    · simp only [ring_step, tqueue_pop_some hlt] at hstep
      cases hstep
      simp only [Function.update_same]
    · simp only [ring_step, tqueue_pop_null (Nat.le_of_not_lt hlt)] at hstep
      cases hstep
      rfl

theorem ring_run_capacity (thread : Nat) : ∀ (ops : List RingOp) (s s1 : RingRun),
    ring_run thread s ops = Outcome.ok s1 →
    (s1.pool.threads thread).capacity = (s.pool.threads thread).capacity := by
  intro ops
  induction ops with
  | nil =>
    intro s s1 hrun
    simp only [ring_run] at hrun
    cases hrun
    rfl
  | cons op ops ih =>
    intro s s1 hrun
    simp only [ring_run] at hrun
    cases hstep : ring_step thread s op with
    | ok s2 =>
      rw [hstep] at hrun
      rw [ih s2 s1 hrun, ring_step_capacity op hstep]
    | exited out code s2 =>
      rw [hstep] at hrun
      cases hrun
    | parked s2 =>
      rw [hstep] at hrun
      cases hrun

/-- Pushes alone, on a ring with room for all of them, all succeed. -/
theorem ring_run_pushes (thread : Nat) : ∀ (tasks : List TPoolTask) (s : RingRun),
    (s.pool.threads thread).tail ≤ (s.pool.threads thread).head →
    (s.pool.threads thread).head + tasks.length < U64 →
    (s.pool.threads thread).head - (s.pool.threads thread).tail + tasks.length
      ≤ (s.pool.threads thread).capacity →
    ∃ s1, ring_run thread s (tasks.map RingOp.push) = Outcome.ok s1 := by
  intro tasks
  induction tasks with
  | nil =>
    intro s _ _ _
    exact ⟨s, rfl⟩
  | cons task tasks ih =>
    intro s hle hb hroom
    simp only [List.length_cons] at hb hroom
    have hsub : sub64 (s.pool.threads thread).head (s.pool.threads thread).tail
        = (s.pool.threads thread).head - (s.pool.threads thread).tail :=
      sub64_of_le hle (by omega)
    have hok := @tqueue_push_ok s.pool thread task (by rw [hsub]; omega)
    have hinc := inc64_of_lt (show (s.pool.threads thread).head + 1 < U64 by omega)
    simp only [List.map_cons, ring_run, ring_step, hok]
    apply ih
    · simp only [Function.update_same, hinc]
      omega
    · simp only [Function.update_same, hinc]
      omega
    · simp only [Function.update_same, hinc]
      omega

theorem ring_run_pushes_popped (thread : Nat) : ∀ (tasks : List TPoolTask) (s s1 : RingRun),
    ring_run thread s (tasks.map RingOp.push) = Outcome.ok s1 → s1.popped = s.popped := by
  intro tasks
  induction tasks with
  | nil =>
    intro s s1 hrun
    simp only [List.map_nil, ring_run] at hrun
    cases hrun
    rfl
  | cons task tasks ih =>
    intro s s1 hrun
    simp only [List.map_cons, ring_run] at hrun
    cases hstep : ring_step thread s (RingOp.push task) with
    | ok s2 =>
      rw [hstep] at hrun
      rw [ih s2 s1 hrun]
      by_cases hfull : sub64 (s.pool.threads thread).head (s.pool.threads thread).tail
          < (s.pool.threads thread).capacity
      · simp only [ring_step, tqueue_push_ok task hfull] at hstep
        cases hstep
        rfl
      · simp only [ring_step, tqueue_push_fatal task (Nat.le_of_not_lt hfull)] at hstep
        cases hstep
    | exited out code s2 =>
      rw [hstep] at hrun
      cases hrun
    | parked s2 =>
      rw [hstep] at hrun
      cases hrun

theorem pushed_map_push (tasks : List TPoolTask) : pushed (tasks.map RingOp.push) = tasks := by
  induction tasks with
  | nil => rfl
  | cons task tasks ih => simp [pushed, ih]

/-! ## C1: the ring invariant -/

/-- C1.  Start from a ring written by `thread_init` and make any sequence of
`tqueue_push` and `tqueue_pop` calls on it in which no push is fatal (the run
is `Outcome.ok`) and which holds fewer than `2^64` pushes.  Then
`tail ≤ head` and `head - tail ≤ capacity`, the capacity still being 16000. -/
theorem ring_invariant (pool : TPool) (thread k : Nat) (ops : List RingOp) (s : RingRun)
    (hinit : pool.threads thread = thread_init k)
    (hrun : ring_run thread ⟨pool, []⟩ ops = Outcome.ok s)
    (hcount : (pushed ops).length < U64) :
    (s.pool.threads thread).tail ≤ (s.pool.threads thread).head ∧
    (s.pool.threads thread).head - (s.pool.threads thread).tail ≤ (s.pool.threads thread).capacity ∧
    (s.pool.threads thread).capacity = THREAD_QUEUE_CAP := by
  have h0 : RingInv (pool.threads thread) [] [] :=
    ring_inv_init (by rw [hinit]; rfl) (by rw [hinit]; rfl)
  have h1 := ring_run_inv thread ops ⟨pool, []⟩ s [] h0 (by simpa using hcount) hrun
  have h2 := ring_run_capacity thread ops ⟨pool, []⟩ s hrun
  refine ⟨h1.tail_le, h1.size_le, ?_⟩
  rw [h2]
  show (pool.threads thread).capacity = THREAD_QUEUE_CAP
  rw [hinit]
  rfl

/-- C1 at a concrete input: three pushes and four pops, the last pop on the
empty ring, then one more push, on the fresh ring of the host. -/
theorem ring_invariant_witness :
    ring_run 0 ⟨host_pool, []⟩ demo_ops = Outcome.ok (ring_run 0 ⟨host_pool, []⟩ demo_ops).state ∧
    (pushed demo_ops).length < U64 ∧
    (((ring_run 0 ⟨host_pool, []⟩ demo_ops).state.pool.threads 0).tail
      ≤ ((ring_run 0 ⟨host_pool, []⟩ demo_ops).state.pool.threads 0).head ∧
    ((ring_run 0 ⟨host_pool, []⟩ demo_ops).state.pool.threads 0).head
      - ((ring_run 0 ⟨host_pool, []⟩ demo_ops).state.pool.threads 0).tail
      ≤ ((ring_run 0 ⟨host_pool, []⟩ demo_ops).state.pool.threads 0).capacity ∧
    ((ring_run 0 ⟨host_pool, []⟩ demo_ops).state.pool.threads 0).capacity = THREAD_QUEUE_CAP) :=
  ⟨rfl, by decide, ring_invariant host_pool 0 0 demo_ops _ rfl rfl (by decide)⟩

/-! ## C3: where the fatal branch of `tqueue_push` begins -/

/-- C3.  `tqueue_push` takes the fatal branch exactly when `head - tail ≥ capacity`
at entry (the 64-bit difference of line 74, which is the plain difference
whenever `tail ≤ head`).  It then prints the diagnostic and exits with code 1,
memory being what it was at entry: no slot written, `head` and `tasks_total`
untouched.  On a ring written by `thread_init`, with no pops, any number of
pushes up to `capacity = 16000` all succeed, and once 16000 tasks have been
pushed the next push, whatever its task, is fatal. -/
theorem tqueue_push_overflow_boundary (pool : TPool) (thread : Nat) (task : TPoolTask) :
    ((∃ out code s, tqueue_push pool thread task = Outcome.exited out code s) ↔
      sub64 (pool.threads thread).head (pool.threads thread).tail ≥ (pool.threads thread).capacity) ∧
    ((pool.threads thread).tail ≤ (pool.threads thread).head → (pool.threads thread).head < U64 →
      ((∃ out code s, tqueue_push pool thread task = Outcome.exited out code s) ↔
        (pool.threads thread).head - (pool.threads thread).tail ≥ (pool.threads thread).capacity)) ∧
    (sub64 (pool.threads thread).head (pool.threads thread).tail ≥ (pool.threads thread).capacity →
      tqueue_push pool thread task = Outcome.exited "Task queue is too full!!\n" 1 pool) ∧
    (∀ (k : Nat) (tasks : List TPoolTask), pool.threads thread = thread_init k →
      tasks.length ≤ THREAD_QUEUE_CAP →
      ∃ s1, ring_run thread ⟨pool, []⟩ (tasks.map RingOp.push) = Outcome.ok s1 ∧
        (s1.pool.threads thread).head = tasks.length ∧
        (s1.pool.threads thread).tail = 0 ∧
        (tasks.length = THREAD_QUEUE_CAP → ∀ t : TPoolTask,
          tqueue_push s1.pool thread t =
            Outcome.exited "Task queue is too full!!\n" 1 s1.pool)) := by
  have hiff : (∃ out code s, tqueue_push pool thread task = Outcome.exited out code s) ↔
      sub64 (pool.threads thread).head (pool.threads thread).tail ≥ (pool.threads thread).capacity := by
    constructor
    · rintro ⟨out, code, s, hs⟩
      by_contra hlt
      rw [tqueue_push_ok task (Nat.lt_of_not_le hlt)] at hs
      cases hs
    · intro hge
      exact ⟨_, _, _, tqueue_push_fatal task hge⟩
  refine ⟨hiff, ?_, tqueue_push_fatal task, ?_⟩
  · intro hle hlt
    rw [hiff, sub64_of_le hle hlt]
  · intro k tasks hinit hlen
    have hcap : THREAD_QUEUE_CAP < U64 := by decide
    have hh : (pool.threads thread).head = 0 := by rw [hinit]; rfl
    have ht : (pool.threads thread).tail = 0 := by rw [hinit]; rfl
    have hc : (pool.threads thread).capacity = THREAD_QUEUE_CAP := by rw [hinit]; rfl
    obtain ⟨s1, hrun⟩ := ring_run_pushes thread tasks ⟨pool, []⟩
      (by simp only [hh, ht]; exact Nat.le_refl 0)
      (by simp only [hh]; omega) (by simp only [hh, ht, hc]; omega)
    have hinv := ring_run_inv thread _ ⟨pool, []⟩ s1 [] (ring_inv_init hh ht)
      (by rw [pushed_map_push]; simp only [List.length_nil]; omega) hrun
    have hcap1 := ring_run_capacity thread _ ⟨pool, []⟩ s1 hrun
    rw [pushed_map_push, List.nil_append] at hinv
    have hhead : (s1.pool.threads thread).head = tasks.length := hinv.head_eq
    have hpop : s1.popped = [] := ring_run_pushes_popped thread tasks ⟨pool, []⟩ s1 hrun
    have htail : (s1.pool.threads thread).tail = 0 := by
      rw [hinv.tail_eq, hpop]
      rfl
    refine ⟨s1, hrun, hhead, htail, ?_⟩
    intro hfull t
    apply tqueue_push_fatal
    rw [sub64_of_le (by omega) (by omega), hhead, htail, hcap1]
    show (pool.threads thread).capacity ≤ tasks.length - 0
    rw [hc]
    omega

/-- C3 at a concrete input: 16000 pushes on the fresh ring of the host. -/
theorem tqueue_push_overflow_boundary_witness :
    (List.replicate 16000 (⟨1, 1⟩ : TPoolTask)).length ≤ THREAD_QUEUE_CAP ∧
    ∃ s1, ring_run 0 ⟨host_pool, []⟩ ((List.replicate 16000 (⟨1, 1⟩ : TPoolTask)).map RingOp.push)
        = Outcome.ok s1 ∧
      (s1.pool.threads 0).head = (List.replicate 16000 (⟨1, 1⟩ : TPoolTask)).length ∧
      (s1.pool.threads 0).tail = 0 ∧
      ((List.replicate 16000 (⟨1, 1⟩ : TPoolTask)).length = THREAD_QUEUE_CAP → ∀ t : TPoolTask,
        tqueue_push s1.pool 0 t = Outcome.exited "Task queue is too full!!\n" 1 s1.pool) :=
  ⟨by rw [List.length_replicate]; decide,
   (tqueue_push_overflow_boundary host_pool 0 ⟨1, 1⟩).2.2.2 0 _ rfl
     (by rw [List.length_replicate]; decide)⟩

/-! ## C2: the ring against the bounded FIFO queue -/

theorem pending_eq_drop {th : Thread} {popped : List (Option TPoolTask)} {P : List TPoolTask}
    (hinv : RingInv th popped P) : pending th = P.drop th.tail := by
  apply List.ext_getElem?
  intro k
  have hle := hinv.tail_le
  have hhead := hinv.head_eq
  rw [List.getElem?_drop]
  unfold pending
  rw [List.getElem?_map]
  by_cases hk : k < th.head - th.tail
  · rw [List.getElem?_range hk, hinv.slots (th.tail + k) (by omega) (by omega)]
    rfl
  · rw [List.getElem?_eq_none (by rw [List.length_range]; omega),
      List.getElem?_eq_none (by omega)]
    rfl

theorem fifo_refines (thread : Nat) : ∀ (ops : List RingOp) (s s1 : RingRun) (P : List TPoolTask)
    (q : Fifo),
    RingInv (s.pool.threads thread) s.popped P →
    P.length + (pushed ops).length < U64 →
    q.cap = (s.pool.threads thread).capacity →
    q.items = P.drop (s.pool.threads thread).tail →
    ring_run thread s ops = Outcome.ok s1 →
    ∃ q1, fifo_run q s.popped ops = some (q1, s1.popped) ∧
      q1.cap = q.cap ∧ q1.items = (P ++ pushed ops).drop (s1.pool.threads thread).tail := by
  intro ops
  induction ops with
  | nil =>
    intro s s1 P q _ _ _ hitems hrun
    simp only [ring_run] at hrun
    cases hrun
    exact ⟨q, rfl, rfl, by simpa [pushed] using hitems⟩
  | cons op ops ih =>
    intro s s1 P q hinv hb hcap hitems hrun
    rw [pushed_cons] at hb ⊢
    rw [List.length_append] at hb
    have hle := hinv.tail_le
    have hhead := hinv.head_eq
    simp only [ring_run] at hrun
    cases hstep : ring_step thread s op with
    | exited out code s2 =>
      rw [hstep] at hrun
      cases hrun
    | parked s2 =>
      rw [hstep] at hrun
      cases hrun
    | ok s2 =>
      rw [hstep] at hrun
      have hinv2 := ring_step_inv op hinv (by omega) hstep
      have hcap2 := ring_step_capacity op hstep
      have hlen : q.items.length = (s.pool.threads thread).head - (s.pool.threads thread).tail := by
        rw [hitems, List.length_drop, hhead]
      cases op with
      | push task =>
        have hb1 : (s.pool.threads thread).head + 1 < U64 := by
          simp only [pushed, List.length_cons, List.length_nil] at hb
          omega
        have hsub := sub64_of_le hle (show (s.pool.threads thread).head < U64 by omega)
        by_cases hfull : sub64 (s.pool.threads thread).head (s.pool.threads thread).tail
            < (s.pool.threads thread).capacity
        · have hstep2 := hstep
          simp only [ring_step, tqueue_push_ok task hfull] at hstep2
          have hpop2 : s2.popped = s.popped := by cases hstep2; rfl
          have htail2 : (s2.pool.threads thread).tail = (s.pool.threads thread).tail := by
            cases hstep2
            simp only [Function.update_same]
          have hq : q.push task = some { q with items := q.items ++ [task] } := by
            unfold Fifo.push
            rw [hsub] at hfull
            have : ¬ (q.items.length ≥ q.cap) := by omega
            simp only [this, if_false]
          obtain ⟨q1, h1, h2, h3⟩ := ih s2 s1 (P ++ pushed [RingOp.push task])
            { q with items := q.items ++ [task] } hinv2
            (by rw [List.length_append]; omega) (by rw [hcap2]; exact hcap)
            (by
              show q.items ++ [task] = _
              rw [htail2, hitems]
              simp only [pushed]
              rw [List.drop_append_of_le_length (by omega)]) hrun
          refine ⟨q1, ?_, h2, ?_⟩
          · simp only [fifo_run, hq]
            rw [← hpop2]
            exact h1
          · rw [h3, List.append_assoc]
        · simp only [ring_step, tqueue_push_fatal task (Nat.le_of_not_lt hfull)] at hstep
          cases hstep
      | pop =>
        have hb1 : (s.pool.threads thread).head < U64 := by omega
        by_cases hlt : (s.pool.threads thread).tail < (s.pool.threads thread).head
        · have hstep2 := hstep
          simp only [ring_step, tqueue_pop_some hlt, deref, Function.update_same] at hstep2
          have hslot := hinv.slots _ (Nat.le_refl _) hlt
          have hlt2 : (s.pool.threads thread).tail < P.length := by omega
          have hget : P[(s.pool.threads thread).tail]
              = (s.pool.threads thread).queue
                  ((s.pool.threads thread).tail % (s.pool.threads thread).capacity) := by
            rw [List.getElem?_eq_getElem hlt2] at hslot
            exact Option.some.inj hslot
          have hpop2 : s2.popped = s.popped ++ [some ((s.pool.threads thread).queue
              ((s.pool.threads thread).tail % (s.pool.threads thread).capacity))] := by
            cases hstep2; rfl
          have htail2 : (s2.pool.threads thread).tail = (s.pool.threads thread).tail + 1 := by
            cases hstep2
            simp only [Function.update_same]
            exact inc64_of_lt (by omega)
          have hq : q.items = (s.pool.threads thread).queue
              ((s.pool.threads thread).tail % (s.pool.threads thread).capacity)
              :: P.drop ((s.pool.threads thread).tail + 1) := by
            rw [hitems, List.drop_eq_getElem_cons hlt2, hget]
          have hqpop : q.pop = (some ((s.pool.threads thread).queue
              ((s.pool.threads thread).tail % (s.pool.threads thread).capacity)),
              { q with items := P.drop ((s.pool.threads thread).tail + 1) }) := by
            unfold Fifo.pop
            rw [hq]
          obtain ⟨q1, h1, h2, h3⟩ := ih s2 s1 (P ++ pushed [RingOp.pop])
            { q with items := P.drop ((s.pool.threads thread).tail + 1) } hinv2
            (by rw [List.length_append]; omega) (by rw [hcap2]; exact hcap)
            (by
              show P.drop ((s.pool.threads thread).tail + 1) = _
              rw [htail2]
              simp only [pushed, List.append_nil]) hrun
          refine ⟨q1, ?_, h2, ?_⟩
          · simp only [fifo_run, hqpop]
            rw [← hpop2]
            exact h1
          · rw [h3, List.append_assoc]
        · have hstep2 := hstep
          simp only [ring_step, tqueue_pop_null (Nat.le_of_not_lt hlt)] at hstep2
          have hpop2 : s2.popped = s.popped ++ [none] := by cases hstep2; rfl
          have htail2 : (s2.pool.threads thread).tail = (s.pool.threads thread).tail := by
            cases hstep2; rfl
          have hq : q.items = [] := by
            rw [hitems]
            exact List.drop_eq_nil_of_le (by omega)
          have hqpop : q.pop = (none, q) := by
            unfold Fifo.pop
            rw [hq]
          obtain ⟨q1, h1, h2, h3⟩ := ih s2 s1 (P ++ pushed [RingOp.pop]) q hinv2
            (by rw [List.length_append]; omega) (by rw [hcap2]; exact hcap)
            (by
              rw [htail2, hitems]
              simp only [pushed, List.append_nil]) hrun
          refine ⟨q1, ?_, h2, ?_⟩
          · simp only [fifo_run, hqpop]
            rw [← hpop2]
            exact h1
          · rw [h3, List.append_assoc]

/-- C2, as amended.  Take a ring with `head = tail = 0` and any sequence of
`tqueue_push` and `tqueue_pop` calls on it in which no push is fatal and which
holds fewer than `2^64` pushes.  Then (1) the tasks handed back by the
successful pops are, in order, the first tasks pushed: the k-th successful pop
returns the k-th pushed task; (2) a further `tqueue_pop` returns `NULL` exactly
when as many tasks have been popped as were pushed; (3) otherwise it returns a
pointer to the next pushed task; (4) the bounded FIFO queue of the same
capacity, given the same calls, never overflows, answers every pop alike and
ends up holding the tasks the ring holds. -/
theorem ring_is_fifo (pool : TPool) (thread : Nat) (ops : List RingOp) (s : RingRun)
    (hh : (pool.threads thread).head = 0) (ht : (pool.threads thread).tail = 0)
    (hrun : ring_run thread ⟨pool, []⟩ ops = Outcome.ok s)
    (hcount : (pushed ops).length < U64) :
    delivered s.popped = (pushed ops).take (delivered s.popped).length ∧
    ((tqueue_pop s.pool thread).1 = none ↔ (delivered s.popped).length = (pushed ops).length) ∧
    (∀ ptr, (tqueue_pop s.pool thread).1 = some ptr →
      (pushed ops)[(delivered s.popped).length]? = some (deref (tqueue_pop s.pool thread).2 ptr)) ∧
    ∃ q, fifo_run ⟨(pool.threads thread).capacity, []⟩ [] ops = some (q, s.popped) ∧
      q.items = pending (s.pool.threads thread) := by
  have h0 : RingInv (pool.threads thread) [] [] := ring_inv_init hh ht
  have hinv := ring_run_inv thread ops ⟨pool, []⟩ s [] h0 (by simpa using hcount) hrun
  rw [List.nil_append] at hinv
  have hle := hinv.tail_le
  have hhead := hinv.head_eq
  have htail := hinv.tail_eq
  refine ⟨?_, ?_, ?_, ?_⟩
  · rw [← htail]
    exact hinv.delivered_eq
  · by_cases hlt : (s.pool.threads thread).tail < (s.pool.threads thread).head
    · rw [tqueue_pop_some hlt]
      constructor
      · intro h
        cases h
      · intro h
        omega
    · rw [tqueue_pop_null (Nat.le_of_not_lt hlt)]
      constructor
      · intro _
        omega
      · intro _
        rfl
  · intro ptr hptr
    by_cases hlt : (s.pool.threads thread).tail < (s.pool.threads thread).head
    · rw [tqueue_pop_some hlt] at hptr ⊢
      cases hptr
      simp only [deref, Function.update_same]
      rw [← htail]
      exact hinv.slots _ (Nat.le_refl _) hlt
    · rw [tqueue_pop_null (Nat.le_of_not_lt hlt)] at hptr
      cases hptr
  · obtain ⟨q1, h1, _, h3⟩ := fifo_refines thread ops ⟨pool, []⟩ s []
      ⟨(pool.threads thread).capacity, []⟩ h0 (by simpa using hcount) rfl (by simp) hrun
    refine ⟨q1, h1, ?_⟩
    rw [h3, List.nil_append]
    exact (pending_eq_drop hinv).symm

/-- C2 as amended, at a concrete input: the pops of `demo_ops` on the fresh
ring of the host hand back the tasks with arguments 10, 20, 30 and one `NULL`. -/
theorem ring_is_fifo_witness :
    ring_run 0 ⟨host_pool, []⟩ demo_ops = Outcome.ok (ring_run 0 ⟨host_pool, []⟩ demo_ops).state ∧
    (ring_run 0 ⟨host_pool, []⟩ demo_ops).state.popped
      = [some ⟨1, 10⟩, some ⟨1, 20⟩, some ⟨1, 30⟩, none] ∧
    delivered (ring_run 0 ⟨host_pool, []⟩ demo_ops).state.popped
      = (pushed demo_ops).take (delivered (ring_run 0 ⟨host_pool, []⟩ demo_ops).state.popped).length :=
  ⟨rfl, by decide,
   (ring_is_fifo host_pool 0 demo_ops (ring_run 0 ⟨host_pool, []⟩ demo_ops).state rfl rfl rfl
     (by decide)).1⟩

/-! ### What happens to C2 once `head` has wrapped -/

theorem pushed_rounds_length (task : TPoolTask) : ∀ (n : Nat) (rest : List RingOp),
    (pushed (rounds task n rest)).length = n + (pushed rest).length := by
  intro n
  induction n with
  | zero =>
    intro rest
    simp [rounds]
  | succ n ih =>
    intro rest
    simp only [rounds, pushed, List.length_cons, ih]
    omega

/-- A round of push and pop on an empty ring leaves it empty, one position on. -/
theorem ring_run_rounds (thread : Nat) (task : TPoolTask) : ∀ (n : Nat) (s : RingRun)
    (rest : List RingOp),
    (s.pool.threads thread).head = (s.pool.threads thread).tail →
    (s.pool.threads thread).head + n < U64 →
    0 < (s.pool.threads thread).capacity →
    ∃ s1, ring_run thread s (rounds task n rest) = ring_run thread s1 rest ∧
      (s1.pool.threads thread).head = (s.pool.threads thread).head + n ∧
      (s1.pool.threads thread).tail = (s.pool.threads thread).head + n ∧
      (s1.pool.threads thread).capacity = (s.pool.threads thread).capacity ∧
      (delivered s1.popped).length = (delivered s.popped).length + n := by
  intro n
  induction n with
  | zero =>
    intro s rest he _ _
    exact ⟨s, rfl, rfl, he.symm, rfl, rfl⟩
  | succ n ih =>
    intro s rest he hb hc
    have hsub : sub64 (s.pool.threads thread).head (s.pool.threads thread).tail = 0 := by
      rw [sub64_of_le (by omega) (by omega)]
      omega
    have hok := @tqueue_push_ok s.pool thread task (by rw [hsub]; exact hc)
    have hinc := inc64_of_lt (show (s.pool.threads thread).head + 1 < U64 by omega)
    have hinc2 := inc64_of_lt (show (s.pool.threads thread).tail + 1 < U64 by omega)
    simp only [rounds, ring_run, ring_step, hok]
    rw [tqueue_pop_some (by simp only [Function.update_same, hinc]; omega)]
    simp only [Function.update_same, Function.update_idem, hinc, hinc2, deref]
    obtain ⟨s1, h1, h2, h3, h4, h5⟩ := ih
      { pool := { s.pool with
          threads := Function.update s.pool.threads thread
            { idx := (s.pool.threads thread).idx,
              queue := Function.update (s.pool.threads thread).queue
                ((s.pool.threads thread).head % (s.pool.threads thread).capacity) task,
              capacity := (s.pool.threads thread).capacity,
              head := (s.pool.threads thread).head + 1,
              tail := (s.pool.threads thread).tail + 1 },
          tasks_total := inc64 s.pool.tasks_total },
        popped := s.popped ++ [some (Function.update (s.pool.threads thread).queue
          ((s.pool.threads thread).head % (s.pool.threads thread).capacity) task
          ((s.pool.threads thread).tail % (s.pool.threads thread).capacity))] } rest
      (by simp only [Function.update_same]; omega)
      (by simp only [Function.update_same]; omega)
      (by simp only [Function.update_same]; exact hc)
    simp only [Function.update_same] at h2 h3 h4 h5
    refine ⟨s1, h1, by omega, by omega, h4, ?_⟩
    rw [h5]
    simp [delivered]
    omega

/-- C2 fails as stated.  On the fresh ring of the host, `wrap_ops` (`2^64 - 1`
rounds of push and pop, then one push) never overflows the ring, yet the next
`tqueue_pop` returns `NULL` although one pushed task has not been popped:
`head` has wrapped to 0 while `tail` is `2^64 - 1`. -/
theorem ring_fifo_fails_after_wrap :
    ∃ s, ring_run 0 ⟨host_pool, []⟩ wrap_ops = Outcome.ok s ∧
      (tqueue_pop s.pool 0).1 = none ∧
      (delivered s.popped).length < (pushed wrap_ops).length ∧
      (s.pool.threads 0).head = 0 ∧ (s.pool.threads 0).tail = U64 - 1 := by
  obtain ⟨s1, h1, h2, h3, h4, h5⟩ := ring_run_rounds 0 ⟨1, 1⟩ (U64 - 1) ⟨host_pool, []⟩
    [RingOp.push ⟨1, 1⟩] rfl (by decide) (by decide)
  have hh : (s1.pool.threads 0).head = U64 - 1 := by rw [h2]; rfl
  have ht : (s1.pool.threads 0).tail = U64 - 1 := by rw [h3]; rfl
  have hc : (s1.pool.threads 0).capacity = THREAD_QUEUE_CAP := by rw [h4]; rfl
  have hd : (delivered s1.popped).length = U64 - 1 := by rw [h5]; rfl
  have hsub : sub64 (s1.pool.threads 0).head (s1.pool.threads 0).tail = 0 := by
    rw [hh, ht]
    decide
  have hok := @tqueue_push_ok s1.pool 0 ⟨1, 1⟩
    (by rw [hsub, hc]; decide)
  have hwrap : inc64 (s1.pool.threads 0).head = 0 := by
    rw [hh]
    decide
  have hrun : ring_run 0 s1 [RingOp.push ⟨1, 1⟩]
      = Outcome.ok (ring_run 0 s1 [RingOp.push ⟨1, 1⟩]).state := by
    simp only [ring_run, ring_step, hok, Outcome.state]
  have hst : (ring_run 0 s1 [RingOp.push ⟨1, 1⟩]).state =
      { s1 with pool := { s1.pool with
          threads := Function.update s1.pool.threads 0
            { (s1.pool.threads 0) with
              queue := Function.update (s1.pool.threads 0).queue
                ((s1.pool.threads 0).head % (s1.pool.threads 0).capacity) ⟨1, 1⟩,
              head := inc64 (s1.pool.threads 0).head },
          tasks_total := inc64 s1.pool.tasks_total } } := by
    simp only [ring_run, ring_step, hok, Outcome.state]
  refine ⟨(ring_run 0 s1 [RingOp.push ⟨1, 1⟩]).state, ?_, ?_, ?_, ?_, ?_⟩
  · unfold wrap_ops
    rw [h1]
    exact hrun
  · rw [hst]
    apply congrArg Prod.fst (tqueue_pop_null _)
    simp only [Function.update_same, hwrap]
    exact Nat.zero_le _
  · rw [hst]
    show (delivered s1.popped).length < _
    unfold wrap_ops
    rw [hd, pushed_rounds_length]
    decide
  · rw [hst]
    simp only [Function.update_same, hwrap]
  · rw [hst]
    simp only [Function.update_same, ht]

/-! ## C9: the pointer returned by `tqueue_pop` and later pushes -/

/-- C9 does not hold of the code.  Fill the fresh ring of the host with 16000
pushes of task `(1, 1)`; the ring invariant holds.  `tqueue_pop` returns a
pointer to slot 0, which holds `(1, 1)`.  One more `tqueue_push`, of task
`(2, 2)`, is not fatal (15999 tasks are queued), goes to slot
`16000 % 16000 = 0`, and the task read through the popper's pointer is now
`(2, 2)`. -/
theorem popped_task_overwritten :
    ∃ s1 ptr p2 p3,
      ring_run 0 ⟨host_pool, []⟩ ((List.replicate 16000 (⟨1, 1⟩ : TPoolTask)).map RingOp.push)
        = Outcome.ok s1 ∧
      (s1.pool.threads 0).tail ≤ (s1.pool.threads 0).head ∧
      (s1.pool.threads 0).head - (s1.pool.threads 0).tail ≤ (s1.pool.threads 0).capacity ∧
      tqueue_pop s1.pool 0 = (some ptr, p2) ∧
      deref p2 ptr = ⟨1, 1⟩ ∧
      tqueue_push p2 0 ⟨2, 2⟩ = Outcome.ok p3 ∧
      deref p3 ptr = ⟨2, 2⟩ := by
  have hlen : (List.replicate 16000 (⟨1, 1⟩ : TPoolTask)).length = 16000 := List.length_replicate _ _
  obtain ⟨s1, hrun⟩ := ring_run_pushes 0 (List.replicate 16000 (⟨1, 1⟩ : TPoolTask)) ⟨host_pool, []⟩
    (Nat.le_refl 0) (by rw [hlen]; decide) (by rw [hlen]; decide)
  have hinv := ring_run_inv 0 _ ⟨host_pool, []⟩ s1 [] (ring_inv_init rfl rfl)
    (by rw [pushed_map_push, hlen]; decide) hrun
  have hcap : (s1.pool.threads 0).capacity = 16000 := ring_run_capacity 0 _ ⟨host_pool, []⟩ s1 hrun
  have hpop : s1.popped = [] := ring_run_pushes_popped 0 _ ⟨host_pool, []⟩ s1 hrun
  rw [pushed_map_push, List.nil_append] at hinv
  have hhead : (s1.pool.threads 0).head = 16000 := by rw [hinv.head_eq, hlen]
  have htail : (s1.pool.threads 0).tail = 0 := by rw [hinv.tail_eq, hpop]; rfl
  have hslot : (s1.pool.threads 0).queue 0 = ⟨1, 1⟩ := by
    have h := hinv.slots 0 (by omega) (by omega)
    rw [hcap, List.getElem?_eq_getElem (by rw [hlen]; decide), List.getElem_replicate] at h
    exact (Option.some.inj h).symm
  have hlt : (s1.pool.threads 0).tail < (s1.pool.threads 0).head := by omega
  have hroom : sub64 (Function.update s1.pool.threads 0
        { (s1.pool.threads 0) with tail := inc64 (s1.pool.threads 0).tail } 0).head
      (Function.update s1.pool.threads 0
        { (s1.pool.threads 0) with tail := inc64 (s1.pool.threads 0).tail } 0).tail
      < (Function.update s1.pool.threads 0
        { (s1.pool.threads 0) with tail := inc64 (s1.pool.threads 0).tail } 0).capacity := by
    simp only [Function.update_same, hhead, htail, hcap]
    decide
  refine ⟨s1, _, _, _, hrun, hinv.tail_le, hinv.size_le, tqueue_pop_some hlt, ?_,
    tqueue_push_ok ⟨2, 2⟩ hroom, ?_⟩
  · simp only [deref, Function.update_same, htail, hcap]
    exact hslot
  · simp only [deref, Function.update_same, hhead, htail, hcap]

/-! ## C4: the wait barrier on a pool whose only running thread is the host -/

theorem pending_cons {th : Thread} (hlt : th.tail < th.head) :
    pending th = th.queue (th.tail % th.capacity) :: pending { th with tail := th.tail + 1 } := by
  unfold pending
  have h1 : th.head - th.tail = (th.head - (th.tail + 1)) + 1 := by omega
  rw [h1, List.range_succ_eq_map, List.map_cons, List.map_map]
  congr 1
  apply List.map_congr_left
  intro k _
  show th.queue ((th.tail + (k + 1)) % th.capacity) = th.queue ((th.tail + 1 + k) % th.capacity)
  rw [Nat.add_assoc, Nat.add_comm k 1]

theorem pending_nil {th : Thread} (hge : th.head ≤ th.tail) : pending th = [] := by
  unfold pending
  rw [Nat.sub_eq_zero_of_le hge]
  rfl

/-- The drain loop on a ring of `n` tasks whose bodies leave the pool alone:
with more than `n` units of fuel it returns, having run exactly the queued
tasks in order, and only `tail` of the ring and `tasks_done` have changed. -/
theorem drain_inert (procs : Procs) (cur : Nat) : ∀ (n fuel : Nat) (s : Exec),
    (s.pool.threads cur).tail + n = (s.pool.threads cur).head →
    (s.pool.threads cur).head < U64 →
    s.pool.tasks_done + n < U64 →
    n < fuel →
    (∀ t ∈ pending (s.pool.threads cur), ∀ p, procs t cur p = Outcome.ok p) →
    ∃ s1, drain procs cur fuel s = some (Outcome.ok s1) ∧
      s1.pool.tasks_done = s.pool.tasks_done + n ∧
      s1.pool.tasks_total = s.pool.tasks_total ∧
      s1.ran = s.ran ++ pending (s.pool.threads cur) ∧
      s1.loops = s.loops ∧
      (s1.pool.threads cur).tail = (s.pool.threads cur).head ∧
      (s1.pool.threads cur).head = (s.pool.threads cur).head ∧
      (s1.pool.threads cur).queue = (s.pool.threads cur).queue ∧
      (s1.pool.threads cur).capacity = (s.pool.threads cur).capacity ∧
      (∀ k, k ≠ cur → s1.pool.threads k = s.pool.threads k) := by
  intro n
  induction n with
  | zero =>
    intro fuel s hn _ _ hfuel _
    obtain ⟨f, rfl⟩ : ∃ f, fuel = f + 1 := ⟨fuel - 1, by omega⟩
    have hnot : ¬ ((s.pool.threads cur).head > (s.pool.threads cur).tail) := by omega
    refine ⟨s, ?_, rfl, rfl, ?_, rfl, ?_, rfl, rfl, rfl, fun _ _ => rfl⟩
    · simp only [drain, hnot, if_false]
    · rw [pending_nil (by omega), List.append_nil]
    · omega
  | succ n ih =>
    intro fuel s hn hhead hdone hfuel hinert
    obtain ⟨f, rfl⟩ : ∃ f, fuel = f + 1 := ⟨fuel - 1, by omega⟩
    have hlt : (s.pool.threads cur).tail < (s.pool.threads cur).head := by omega
    have hgt : (s.pool.threads cur).head > (s.pool.threads cur).tail := hlt
    have hpend := pending_cons hlt
    have hinc := inc64_of_lt (show (s.pool.threads cur).tail + 1 < U64 by omega)
    have hincd := inc64_of_lt (show s.pool.tasks_done + 1 < U64 by omega)
    have hbody := hinert ((s.pool.threads cur).queue
      ((s.pool.threads cur).tail % (s.pool.threads cur).capacity))
      (by rw [hpend]; exact List.mem_cons_self _ _)
    simp only [drain, hgt, if_true, tqueue_pop_safe, tqueue_pop_some hlt, deref,
      Function.update_same, hbody, hinc, hincd]
    obtain ⟨s1, h1, h2, h3, h4, h5, h6, h7, h8, h9, h10⟩ := ih f
      { pool := { threads := Function.update s.pool.threads cur
                    { idx := (s.pool.threads cur).idx, queue := (s.pool.threads cur).queue,
                      capacity := (s.pool.threads cur).capacity,
                      head := (s.pool.threads cur).head,
                      tail := (s.pool.threads cur).tail + 1 },
                  thread_count := s.pool.thread_count, running := s.pool.running,
                  tasks_done := s.pool.tasks_done + 1, tasks_total := s.pool.tasks_total },
        ran := s.ran ++ [(s.pool.threads cur).queue
          ((s.pool.threads cur).tail % (s.pool.threads cur).capacity)],
        loops := s.loops }
      (by simp only [Function.update_same]; omega)
      (by simp only [Function.update_same]; exact hhead)
      (by show s.pool.tasks_done + 1 + n < U64; omega)
      (by omega)
      (by
        intro t ht p
        simp only [Function.update_same] at ht
        exact hinert t (by rw [hpend]; exact List.mem_cons_of_mem _ ht) p)
    simp only [Function.update_same] at h3 h4 h5 h6 h7 h8 h9 h2
    refine ⟨s1, h1, ?_, h3, ?_, h5, h6, h7, h8, h9, ?_⟩
    · rw [h2]
      omega
    · rw [h4, hpend, List.append_assoc]
      rfl
    · intro k hk
      rw [h10 k hk]
      exact Function.update_noteq hk _ _

/-- C4.  Let the host (`cur`) call `tpool_wait` while no other thread runs, on a
pool whose outstanding tasks are the tasks queued on the host ring,
`tasks_done + (head - tail) = tasks_total` (the equation
`tasks_total - tasks_done = head - tail` between two counts, the counters being
64-bit values), and whose queued tasks have bodies that submit nothing.  Then, given fuel for
one more iteration than there are queued tasks, `tpool_wait` returns without
reaching `cond_wait`; on return
`tasks_done = tasks_total`, the host ring is empty (`tqueue_pop` would return
`NULL`, and `tail = head` when `tail ≤ head` held at entry), and the bodies
called during the wait are exactly the tasks queued at entry, once each, in
queue order. -/
theorem tpool_wait_completes (procs : Procs) (cur : Nat) (pool : TPool) (ran : List TPoolTask)
    (loops fuel wakes : Nat)
    (hhead : (pool.threads cur).head < U64) (htotal : pool.tasks_total < U64)
    (hacc : pool.tasks_done + ((pool.threads cur).head - (pool.threads cur).tail)
      = pool.tasks_total)
    (hinert : ∀ t ∈ pending (pool.threads cur), ∀ p, procs t cur p = Outcome.ok p)
    (hfuel : (pool.threads cur).head - (pool.threads cur).tail < fuel) :
    ∃ s1, tpool_wait procs cur fuel wakes ⟨pool, ran, loops⟩ = some (Outcome.ok s1) ∧
      s1.pool.tasks_done = s1.pool.tasks_total ∧
      s1.pool.tasks_total = pool.tasks_total ∧
      s1.ran = ran ++ pending (pool.threads cur) ∧
      (s1.pool.threads cur).head - (s1.pool.threads cur).tail = 0 ∧
      (tqueue_pop s1.pool cur).1 = none ∧
      ((pool.threads cur).tail ≤ (pool.threads cur).head →
        (s1.pool.threads cur).tail = (s1.pool.threads cur).head) := by
  by_cases hlt : pool.tasks_done < pool.tasks_total
  · have hle : (pool.threads cur).tail < (pool.threads cur).head := by omega
    obtain ⟨s1, h1, h2, h3, h4, _, h6, h7, _, _, _⟩ := drain_inert procs cur
      ((pool.threads cur).head - (pool.threads cur).tail) fuel ⟨pool, ran, loops + 1⟩
      (by show (pool.threads cur).tail + _ = (pool.threads cur).head; omega) hhead
      (by show pool.tasks_done + _ < U64; omega) hfuel hinert
    have h2a : s1.pool.tasks_done = pool.tasks_done
        + ((pool.threads cur).head - (pool.threads cur).tail) := h2
    have h3a : s1.pool.tasks_total = pool.tasks_total := h3
    have h6a : (s1.pool.threads cur).tail = (pool.threads cur).head := h6
    have h7a : (s1.pool.threads cur).head = (pool.threads cur).head := h7
    have hq : s1.pool.tasks_done = s1.pool.tasks_total := by omega
    refine ⟨s1, ?_, hq, h3a, h4, by omega, ?_, fun _ => by omega⟩
    · unfold tpool_wait
      simp only [hlt, if_true, h1, hq]
    · exact congrArg Prod.fst (tqueue_pop_null (by omega))
  · have hz : (pool.threads cur).head - (pool.threads cur).tail = 0 := by omega
    have hq : pool.tasks_done = pool.tasks_total := by omega
    refine ⟨⟨pool, ran, loops⟩, ?_, hq, rfl, ?_, hz, ?_, ?_⟩
    rotate_right
    · intro hle
      show (pool.threads cur).tail = (pool.threads cur).head
      omega
    · unfold tpool_wait
      simp only [hlt, if_false]
    · show ran = ran ++ pending (pool.threads cur)
      rw [pending_nil (by omega), List.append_nil]
    · exact congrArg Prod.fst (tqueue_pop_null (by show (pool.threads cur).tail ≥ (pool.threads cur).head; omega))

/-- C4 at a concrete input: two tasks queued on the host ring, bodies that
leave the pool alone, fuel 3. -/
theorem tpool_wait_completes_witness :
    pending (two_queued.threads 0) = [⟨1, 10⟩, ⟨1, 20⟩] ∧
    two_queued.tasks_done + ((two_queued.threads 0).head - (two_queued.threads 0).tail)
      = two_queued.tasks_total ∧
    ∃ s1, tpool_wait inert 0 3 0 ⟨two_queued, [], 0⟩ = some (Outcome.ok s1) ∧
      s1.pool.tasks_done = s1.pool.tasks_total ∧
      s1.pool.tasks_total = two_queued.tasks_total ∧
      s1.ran = [] ++ pending (two_queued.threads 0) ∧
      (s1.pool.threads 0).head - (s1.pool.threads 0).tail = 0 ∧
      (tqueue_pop s1.pool 0).1 = none ∧
      ((two_queued.threads 0).tail ≤ (two_queued.threads 0).head →
        (s1.pool.threads 0).tail = (s1.pool.threads 0).head) :=
  ⟨by decide, by decide,
   tpool_wait_completes inert 0 two_queued [] 0 3 0 (by decide) (by decide) (by decide)
     (fun _ _ _ => rfl) (by decide)⟩

/-! ## C5: the counters after `tpool_init` -/

/-- With work outstanding and every ring empty, the steal scan looks at all
workers, pops nothing and leaves the state as it is. -/
theorem steal_loop_idle (procs : Procs) (trylock : Nat → Nat) (cur : Nat) (s : Exec)
    (hne : s.pool.tasks_done ≠ s.pool.tasks_total) (hN : 0 < s.pool.thread_count)
    (hempty : ∀ j, j < s.pool.thread_count → (s.pool.threads j).head ≤ (s.pool.threads j).tail) :
    ∀ (n i idx : Nat) (probes : List Nat),
    (steal_loop procs trylock cur n i idx s probes).exec = s ∧
    (steal_loop procs trylock cur n i idx s probes).fin = ScanEnd.full := by
  intro n
  induction n with
  | zero =>
    intro i idx probes
    exact ⟨rfl, rfl⟩
  | succ n ih =>
    intro i idx probes
    have hnot : ¬ ((s.pool.threads ((idx + 1) % s.pool.thread_count)).head
        > (s.pool.threads ((idx + 1) % s.pool.thread_count)).tail) := by
      have := hempty _ (Nat.mod_lt (idx + 1) hN)
      omega
    simp only [steal_loop, hne, if_false, hnot]
    exact ih (i + 1) ((idx + 1) % s.pool.thread_count) _

/-- On an empty ring with `tasks_done < tasks_total`, `tpool_wait` runs nothing:
it goes round its loop once per wake-up and then stays in `cond_wait`. -/
theorem tpool_wait_parks (procs : Procs) (cur fuel : Nat) : ∀ (wakes : Nat) (s : Exec),
    s.pool.tasks_done < s.pool.tasks_total →
    (s.pool.threads cur).head ≤ (s.pool.threads cur).tail →
    tpool_wait procs cur (fuel + 1) wakes s
      = some (Outcome.parked { s with loops := s.loops + wakes + 1 }) := by
  intro wakes
  induction wakes with
  | zero =>
    intro s hlt hempty
    have hnot : ¬ ((s.pool.threads cur).head > (s.pool.threads cur).tail) := by omega
    have hne : ¬ (s.pool.tasks_done = s.pool.tasks_total) := by omega
    unfold tpool_wait
    simp only [hlt, if_true, drain, hnot, if_false, hne, Nat.add_zero]
  | succ w ih =>
    intro s hlt hempty
    have hnot : ¬ ((s.pool.threads cur).head > (s.pool.threads cur).tail) := by omega
    have hne : ¬ (s.pool.tasks_done = s.pool.tasks_total) := by omega
    unfold tpool_wait
    simp only [hlt, if_true, drain, hnot, if_false, hne]
    rw [ih { s with loops := s.loops + 1 } hlt hempty]
    simp only [Nat.add_assoc, Nat.add_comm 1 w]

/-- C5 does not hold of the code.  `tpool_init` never writes `tasks_done` or
`tasks_total`: the pool it returns has the values that were in the `malloc`
block.  On the block `stale_mem` (`tasks_total` word 1, everything else 0),
`tpool_init(4)` returns a pool of five workers with fresh rings and
`tasks_total = 1`, `tasks_done = 0`, and `tpool_wait` called right after does
not return: after any number of spurious wake-ups it is back in `cond_wait`,
with nothing queued anywhere.  The steal
phase of any of the five workers finds nothing either and changes nothing, so
no thread is left to signal the condition variable. -/
theorem tpool_init_leaves_counters (mem : TPool) (child_thread_count : Nat) (procs : Procs)
    (trylock : Nat → Nat) (fuel wakes : Nat) :
    (tpool_init mem child_thread_count).tasks_total = mem.tasks_total ∧
    (tpool_init mem child_thread_count).tasks_done = mem.tasks_done ∧
    (tpool_init stale_mem 4).thread_count = 5 ∧
    (tpool_init stale_mem 4).tasks_total = 1 ∧
    (tpool_init stale_mem 4).tasks_done = 0 ∧
    (∀ i, i < 5 → ((tpool_init stale_mem 4).threads i).head = 0 ∧
      ((tpool_init stale_mem 4).threads i).tail = 0) ∧
    tpool_wait procs 0 (fuel + 1) wakes ⟨tpool_init stale_mem 4, [], 0⟩
      = some (Outcome.parked ⟨tpool_init stale_mem 4, [], 0 + wakes + 1⟩) ∧
    (∀ i, i < 5 → ∃ scan,
      tpool_worker_steal procs trylock i ⟨tpool_init stale_mem 4, [], 0⟩ = some scan ∧
      scan.exec = ⟨tpool_init stale_mem 4, [], 0⟩ ∧ scan.fin = ScanEnd.full) := by
  have hrings : ∀ i, i < 5 → ((tpool_init stale_mem 4).threads i).head = 0 ∧
      ((tpool_init stale_mem 4).threads i).tail = 0 := by decide
  refine ⟨rfl, rfl, rfl, rfl, rfl, hrings, ?_, ?_⟩
  · exact tpool_wait_parks procs 0 fuel wakes ⟨tpool_init stale_mem 4, [], 0⟩
      (by decide) (by decide)
  · intro i hi
    have hguard : (tpool_init stale_mem 4).tasks_done < (tpool_init stale_mem 4).tasks_total ∧
        ((tpool_init stale_mem 4).threads i).head = ((tpool_init stale_mem 4).threads i).tail := by
      refine ⟨by decide, ?_⟩
      rw [(hrings i hi).1, (hrings i hi).2]
    have hidle := steal_loop_idle procs trylock i ⟨tpool_init stale_mem 4, [], 0⟩
      (by decide) (by decide)
      (by
        intro j hj
        have hj5 : j < 5 := hj
        show ((tpool_init stale_mem 4).threads j).head ≤ ((tpool_init stale_mem 4).threads j).tail
        rw [(hrings j hj5).1, (hrings j hj5).2])
      (tpool_init stale_mem 4).thread_count 0 ((tpool_init stale_mem 4).threads i).idx []
    refine ⟨_, ?_, hidle.1, hidle.2⟩
    unfold tpool_worker_steal
    rw [if_pos hguard]

/-! ## C6: the two counters -/

theorem sum_update_thread (g : Thread → Nat) (threads : Nat → Thread) (i N : Nat) (th1 : Thread)
    (hi : i < N) :
    (∑ j in Finset.range N, g (Function.update threads i th1 j)) + g (threads i)
      = (∑ j in Finset.range N, g (threads j)) + g th1 := by
  have hmem : i ∈ Finset.range N := Finset.mem_range.mpr hi
  have h1 := Finset.add_sum_erase (Finset.range N)
    (fun j => g (Function.update threads i th1 j)) hmem
  have h2 := Finset.add_sum_erase (Finset.range N) (fun j => g (threads j)) hmem
  have h3 : ∑ j in (Finset.range N).erase i, g (Function.update threads i th1 j)
      = ∑ j in (Finset.range N).erase i, g (threads j) :=
    Finset.sum_congr rfl (fun j hj => by rw [Function.update_noteq (Finset.ne_of_mem_erase hj)])
  beta_reduce at h1 h2
  rw [Function.update_same, h3] at h1
  omega

theorem pool_step_inv {s s1 : Sys} {r : Nat} (st : PoolStep)
    (hinv : PoolInv s (r + push_count [st]))
    (hstep : pool_step s st = some s1) :
    PoolInv s1 r ∧ s1.pool.thread_count = s.pool.thread_count := by
  have hacc := hinv.account
  have htot := hinv.total_lt
  cases st with
  | push thread task =>
    simp only [push_count] at hinv htot
    by_cases hi : thread < s.pool.thread_count
    · obtain ⟨hle, hlt⟩ := hinv.rings thread hi
      have hsub := sub64_of_le hle (show (s.pool.threads thread).head < U64 by omega)
      by_cases hfull : sub64 (s.pool.threads thread).head (s.pool.threads thread).tail
          < (s.pool.threads thread).capacity
      · simp only [pool_step, hi, if_true, tqueue_push_ok task hfull] at hstep
        cases hstep
        have hinc := inc64_of_lt (show (s.pool.threads thread).head + 1 < U64 by omega)
        have hinct := inc64_of_lt (show s.pool.tasks_total + 1 < U64 by omega)
        have hsum := sum_update_thread (fun th => th.head - th.tail) s.pool.threads thread
          s.pool.thread_count
          { (s.pool.threads thread) with
            queue := Function.update (s.pool.threads thread).queue
              ((s.pool.threads thread).head % (s.pool.threads thread).capacity) task,
            head := inc64 (s.pool.threads thread).head } hi
        simp only [hinc] at hsum
        refine ⟨⟨?_, ?_, ?_⟩, rfl⟩
        · show inc64 s.pool.tasks_total = s.pool.tasks_done + queued _ + s.in_flight
          unfold queued at hacc ⊢
          simp only [hinc, hinct]
          omega
        · show inc64 s.pool.tasks_total + r < U64
          omega
        · intro j hj
          have hj1 : j < s.pool.thread_count := hj
          by_cases hjt : j = thread
          · subst hjt
            simp only [Function.update_same, hinc]
            omega
          · simp only [Function.update_noteq hjt]
            have := hinv.rings j hj1
            omega
      · simp only [pool_step, hi, if_true, tqueue_push_fatal task (Nat.le_of_not_lt hfull)] at hstep
        cases hstep
    · simp only [pool_step, hi, if_false] at hstep
      cases hstep
  | pop thread =>
    simp only [push_count, Nat.add_zero] at hinv htot
    by_cases hi : thread < s.pool.thread_count
    · obtain ⟨hle, hlt⟩ := hinv.rings thread hi
      by_cases hne : (s.pool.threads thread).tail < (s.pool.threads thread).head
      · simp only [pool_step, hi, if_true, tqueue_pop_some hne] at hstep
        cases hstep
        have hinc := inc64_of_lt (show (s.pool.threads thread).tail + 1 < U64 by omega)
        have hsum := sum_update_thread (fun th => th.head - th.tail) s.pool.threads thread
          s.pool.thread_count
          { (s.pool.threads thread) with tail := inc64 (s.pool.threads thread).tail } hi
        simp only [hinc] at hsum
        refine ⟨⟨?_, htot, ?_⟩, rfl⟩
        · show s.pool.tasks_total = s.pool.tasks_done + queued _ + (s.in_flight + 1)
          unfold queued at hacc ⊢
          simp only [hinc]
          omega
        · intro j hj
          have hj1 : j < s.pool.thread_count := hj
          by_cases hjt : j = thread
          · subst hjt
            simp only [Function.update_same, hinc]
            omega
          · simp only [Function.update_noteq hjt]
            exact hinv.rings j hj1
      · simp only [pool_step, hi, if_true, tqueue_pop_null (Nat.le_of_not_lt hne)] at hstep
        cases hstep
    · simp only [pool_step, hi, if_false] at hstep
      cases hstep
  | complete =>
    simp only [push_count, Nat.add_zero] at hinv htot
    by_cases hf : 0 < s.in_flight
    · simp only [pool_step, hf, if_true] at hstep
      cases hstep
      have hincd := inc64_of_lt (show s.pool.tasks_done + 1 < U64 by omega)
      refine ⟨⟨?_, htot, hinv.rings⟩, rfl⟩
      show s.pool.tasks_total = inc64 s.pool.tasks_done + queued s.pool + (s.in_flight - 1)
      rw [hincd]
      omega
    · simp only [pool_step, hf, if_false] at hstep
      cases hstep

theorem push_count_cons (st : PoolStep) (steps : List PoolStep) :
    push_count (st :: steps) = push_count steps + push_count [st] := by
  cases st <;> simp [push_count]

theorem pool_run_inv : ∀ (steps : List PoolStep) (s s1 : Sys),
    PoolInv s (push_count steps) → pool_run s steps = some s1 →
    PoolInv s1 0 ∧ s1.pool.thread_count = s.pool.thread_count := by
  intro steps
  induction steps with
  | nil =>
    intro s s1 hinv hrun
    simp only [pool_run] at hrun
    cases hrun
    exact ⟨hinv, rfl⟩
  | cons st steps ih =>
    intro s s1 hinv hrun
    rw [push_count_cons] at hinv
    simp only [pool_run] at hrun
    cases hstep : pool_step s st with
    | none =>
      rw [hstep] at hrun
      cases hrun
    | some s2 =>
      rw [hstep] at hrun
      obtain ⟨h2, hc2⟩ := pool_step_inv st hinv hstep
      obtain ⟨h3, hc3⟩ := ih s2 s1 h2 hrun
      exact ⟨h3, hc3.trans hc2⟩

/-- C6, as amended.  Start from a pool with both counters 0 and every ring
empty (`head = tail`) and take any sequence of steps -- pushes that are not
fatal, pops that return a task, completions of popped tasks -- that holds
fewer than `2^64` pushes and lets no ring's `head` reach `2^64` (for rings
that start at `head = 0`, as `thread_init` leaves them, the first bound gives
the second).  Then `tasks_done ≤ tasks_total`, and `tasks_total - tasks_done`
is the number of tasks queued in the rings plus the number of tasks popped and
not yet completed. -/
theorem counters_ordered (p0 : TPool) (steps : List PoolStep) (s : Sys)
    (hd : p0.tasks_done = 0) (ht : p0.tasks_total = 0)
    (hempty : ∀ i, i < p0.thread_count → (p0.threads i).head = (p0.threads i).tail)
    (hwrap : ∀ i, i < p0.thread_count → (p0.threads i).head + push_count steps < U64)
    (hcount : push_count steps < U64)
    (hrun : pool_run ⟨p0, 0⟩ steps = some s) :
    s.pool.tasks_done ≤ s.pool.tasks_total ∧
    s.pool.tasks_total - s.pool.tasks_done = queued s.pool + s.in_flight := by
  have h0 : PoolInv ⟨p0, 0⟩ (push_count steps) := by
    refine ⟨?_, ?_, ?_⟩
    · show p0.tasks_total = p0.tasks_done + queued p0 + 0
      have hq : queued p0 = 0 := by
        unfold queued
        apply Finset.sum_eq_zero
        intro i hi
        rw [hempty i (Finset.mem_range.mp hi), Nat.sub_self]
      rw [hd, ht, hq]
    · show p0.tasks_total + push_count steps < U64
      rw [ht]
      omega
    · intro i hi
      exact ⟨Nat.le_of_eq (hempty i hi).symm, hwrap i hi⟩
  obtain ⟨h1, _⟩ := pool_run_inv steps ⟨p0, 0⟩ s h0 hrun
  have hacc := h1.account
  omega

/-- C6 as amended, at a concrete input: seven steps on a pool of two workers,
after which three tasks were submitted, one is completed and two are in flight. -/
theorem counters_ordered_witness :
    pool_run ⟨pair_pool, 0⟩ demo_steps = some ((pool_run ⟨pair_pool, 0⟩ demo_steps).getD ⟨pair_pool, 0⟩) ∧
    ((pool_run ⟨pair_pool, 0⟩ demo_steps).getD ⟨pair_pool, 0⟩).pool.tasks_total = 3 ∧
    ((pool_run ⟨pair_pool, 0⟩ demo_steps).getD ⟨pair_pool, 0⟩).pool.tasks_done = 1 ∧
    ((pool_run ⟨pair_pool, 0⟩ demo_steps).getD ⟨pair_pool, 0⟩).in_flight = 2 ∧
    queued ((pool_run ⟨pair_pool, 0⟩ demo_steps).getD ⟨pair_pool, 0⟩).pool = 0 ∧
    (((pool_run ⟨pair_pool, 0⟩ demo_steps).getD ⟨pair_pool, 0⟩).pool.tasks_done
      ≤ ((pool_run ⟨pair_pool, 0⟩ demo_steps).getD ⟨pair_pool, 0⟩).pool.tasks_total ∧
     ((pool_run ⟨pair_pool, 0⟩ demo_steps).getD ⟨pair_pool, 0⟩).pool.tasks_total
        - ((pool_run ⟨pair_pool, 0⟩ demo_steps).getD ⟨pair_pool, 0⟩).pool.tasks_done
      = queued ((pool_run ⟨pair_pool, 0⟩ demo_steps).getD ⟨pair_pool, 0⟩).pool
        + ((pool_run ⟨pair_pool, 0⟩ demo_steps).getD ⟨pair_pool, 0⟩).in_flight) :=
  ⟨rfl, by decide, by decide, by decide, by decide,
   counters_ordered pair_pool demo_steps _ rfl rfl (by decide) (by decide) (by decide) rfl⟩

/-! ### What happens to C6 once `tasks_total` has wrapped -/

theorem pool_run_rounds (task : TPoolTask) : ∀ (n : Nat) (s : Sys) (rest : List PoolStep),
    0 < s.pool.thread_count →
    (s.pool.threads 0).head = (s.pool.threads 0).tail →
    (s.pool.threads 0).head + n < U64 →
    s.pool.tasks_total + n < U64 →
    s.pool.tasks_done + n < U64 →
    0 < (s.pool.threads 0).capacity →
    ∃ s1, pool_run s (pool_rounds task n rest) = pool_run s1 rest ∧
      (s1.pool.threads 0).head = (s.pool.threads 0).head + n ∧
      (s1.pool.threads 0).tail = (s.pool.threads 0).head + n ∧
      (s1.pool.threads 0).capacity = (s.pool.threads 0).capacity ∧
      s1.pool.tasks_total = s.pool.tasks_total + n ∧
      s1.pool.tasks_done = s.pool.tasks_done + n ∧
      s1.pool.thread_count = s.pool.thread_count := by
  intro n
  induction n with
  | zero =>
    intro s rest _ he _ _ _ _
    exact ⟨s, rfl, rfl, he.symm, rfl, rfl, rfl, rfl⟩
  | succ n ih =>
    intro s rest hi he hb ht hd hc
    have hsub : sub64 (s.pool.threads 0).head (s.pool.threads 0).tail = 0 := by
      rw [sub64_of_le (by omega) (by omega)]
      omega
    have hok := @tqueue_push_ok s.pool 0 task (by rw [hsub]; exact hc)
    have hinc := inc64_of_lt (show (s.pool.threads 0).head + 1 < U64 by omega)
    have hinc2 := inc64_of_lt (show (s.pool.threads 0).tail + 1 < U64 by omega)
    have hinct := inc64_of_lt (show s.pool.tasks_total + 1 < U64 by omega)
    have hincd := inc64_of_lt (show s.pool.tasks_done + 1 < U64 by omega)
    simp only [pool_rounds, pool_run, pool_step, hi, if_true, hok]
    rw [tqueue_pop_some (by simp only [Function.update_same, hinc]; omega)]
    simp only [Function.update_same, Function.update_idem, hinc, hinc2, hinct, hincd,
      Nat.zero_lt_succ, if_true, Nat.add_sub_cancel]
    obtain ⟨s1, h1, h2, h3, h4, h5, h6, h7⟩ := ih
      { pool := { threads := Function.update s.pool.threads 0
                    { idx := (s.pool.threads 0).idx,
                      queue := Function.update (s.pool.threads 0).queue
                        ((s.pool.threads 0).head % (s.pool.threads 0).capacity) task,
                      capacity := (s.pool.threads 0).capacity,
                      head := (s.pool.threads 0).head + 1,
                      tail := (s.pool.threads 0).tail + 1 },
                  thread_count := s.pool.thread_count, running := s.pool.running,
                  tasks_done := s.pool.tasks_done + 1,
                  tasks_total := s.pool.tasks_total + 1 },
        in_flight := s.in_flight } rest
      hi
      (by simp only [Function.update_same]; omega)
      (by simp only [Function.update_same]; omega)
      (by show s.pool.tasks_total + 1 + n < U64; omega)
      (by show s.pool.tasks_done + 1 + n < U64; omega)
      (by simp only [Function.update_same]; exact hc)
    simp only [Function.update_same] at h2 h3 h4
    have h5a : s1.pool.tasks_total = s.pool.tasks_total + 1 + n := h5
    have h6a : s1.pool.tasks_done = s.pool.tasks_done + 1 + n := h6
    exact ⟨s1, h1, by omega, by omega, h4, by omega, by omega, h7⟩

/-- C6 fails as stated.  From the pool of `tpool_init(0)` with both counters 0,
`wrap_steps` (`2^64 - 1` rounds of push, pop and complete, then one push) can
be run step by step, and ends with `tasks_total = 0` and
`tasks_done = 2^64 - 1`: `tasks_total` has wrapped and `tasks_done` is the
larger of the two, with one task queued. -/
theorem counters_fail_after_wrap :
    ∃ s, pool_run ⟨host_pool, 0⟩ wrap_steps = some s ∧
      s.pool.tasks_total < s.pool.tasks_done ∧
      s.pool.tasks_total = 0 ∧ s.pool.tasks_done = U64 - 1 := by
  obtain ⟨s1, h1, h2, h3, h4, h5, h6, h7⟩ := pool_run_rounds ⟨1, 1⟩ (U64 - 1) ⟨host_pool, 0⟩
    [PoolStep.push 0 ⟨1, 1⟩] (by decide) rfl (by decide) (by decide) (by decide) (by decide)
  have hh : (s1.pool.threads 0).head = U64 - 1 := by rw [h2]; rfl
  have ht : (s1.pool.threads 0).tail = U64 - 1 := by rw [h3]; rfl
  have hc : (s1.pool.threads 0).capacity = THREAD_QUEUE_CAP := by rw [h4]; rfl
  have htot : s1.pool.tasks_total = U64 - 1 := by rw [h5]; rfl
  have hdone : s1.pool.tasks_done = U64 - 1 := by rw [h6]; rfl
  have hcount : 0 < s1.pool.thread_count := by rw [h7]; decide
  have hsub : sub64 (s1.pool.threads 0).head (s1.pool.threads 0).tail = 0 := by
    rw [hh, ht]
    decide
  have hok := @tqueue_push_ok s1.pool 0 ⟨1, 1⟩
    (by rw [hsub, hc]; decide)
  have hwrap : inc64 s1.pool.tasks_total = 0 := by
    rw [htot]
    decide
  have hrun : pool_run s1 [PoolStep.push 0 ⟨1, 1⟩]
      = some { s1 with pool := { s1.pool with
          threads := Function.update s1.pool.threads 0
            { (s1.pool.threads 0) with
              queue := Function.update (s1.pool.threads 0).queue
                ((s1.pool.threads 0).head % (s1.pool.threads 0).capacity) ⟨1, 1⟩,
              head := inc64 (s1.pool.threads 0).head },
          tasks_total := inc64 s1.pool.tasks_total } } := by
    simp only [pool_run, pool_step, hcount, if_true, hok]
  have hall := h1.trans hrun
  have hlt : inc64 s1.pool.tasks_total < s1.pool.tasks_done := by
    rw [hwrap, hdone]
    decide
  exact ⟨_, hall, hlt, hwrap, hdone⟩

/-! ## C10: the order of the steal scan -/

theorem scan_index_shift (idx n k : Nat) :
    ((idx + 1) % n + 1 + k) % n = (idx + 1 + (k + 1)) % n := by
  rw [Nat.add_assoc ((idx + 1) % n), Nat.mod_add_mod, Nat.add_comm 1 k]

/-- A scan that runs to the end of the `for` loop looks at
`idx+1, idx+2, ..` modulo `thread_count`, one index per iteration. -/
theorem steal_loop_full (procs : Procs) (trylock : Nat → Nat) (cur : Nat) :
    ∀ (n i idx : Nat) (s : Exec) (probes : List Nat),
    (steal_loop procs trylock cur n i idx s probes).fin = ScanEnd.full →
    (steal_loop procs trylock cur n i idx s probes).probes
      = probes ++ (List.range n).map (fun k => (idx + 1 + k) % s.pool.thread_count) := by
  intro n
  induction n with
  | zero =>
    intro i idx s probes _
    simp [steal_loop]
  | succ n ih =>
    intro i idx s probes h
    have hshape : probes ++ [(idx + 1) % s.pool.thread_count]
        ++ (List.range n).map (fun k => ((idx + 1) % s.pool.thread_count + 1 + k) % s.pool.thread_count)
        = probes ++ (List.range (n + 1)).map (fun k => (idx + 1 + k) % s.pool.thread_count) := by
      rw [List.range_succ_eq_map, List.map_cons, List.map_map, List.append_assoc]
      congr 1
      simp only [List.singleton_append, Nat.add_zero]
      congr 1
      apply List.map_congr_left
      intro k _
      exact scan_index_shift idx s.pool.thread_count k
    by_cases hq : s.pool.tasks_done = s.pool.tasks_total
    · simp only [steal_loop, hq, if_true] at h
      cases h
    · by_cases hwork : (s.pool.threads ((idx + 1) % s.pool.thread_count)).head
          > (s.pool.threads ((idx + 1) % s.pool.thread_count)).tail
      · by_cases hlock : trylock i ≠ 0
        · simp only [steal_loop, hq, if_false, hwork, if_true, hlock, ne_eq, not_false_eq_true] at h ⊢
          rw [ih (i + 1) ((idx + 1) % s.pool.thread_count) s _ h]
          exact hshape
        · exfalso
          have hlock0 : trylock i = 0 := by
            by_contra hne
            exact hlock hne
          simp only [steal_loop, hq, if_false, hwork, if_true, hlock0, ne_eq, not_true_eq_false,
            tqueue_pop_some hwork] at h
          split at h <;> cases h
      · simp only [steal_loop, hq, if_false, hwork] at h ⊢
        rw [ih (i + 1) ((idx + 1) % s.pool.thread_count) s _ h]
        exact hshape

theorem scan_index_inj {a n x y : Nat} (hx : x < n) (hy : y < n)
    (h : (a + x) % n = (a + y) % n) : x = y := by
  have h1 : x ≡ y [MOD n] := Nat.ModEq.add_left_cancel' a h
  have h2 : x % n = y % n := h1
  rwa [Nat.mod_eq_of_lt hx, Nat.mod_eq_of_lt hy] at h2

/-- The indices `(a+1) % n, (a+2) % n, .., (a+n) % n`, for `a < n`: they begin
just past `a`, stay below `n`, are a rearrangement of `0 .. n-1`, and end at `a`. -/
theorem scan_order_facts (a n : Nat) (ha : a < n) :
    ((List.range n).map (fun k => (a + 1 + k) % n)).head? = some ((a + 1) % n) ∧
    (∀ j ∈ (List.range n).map (fun k => (a + 1 + k) % n), j < n) ∧
    ((List.range n).map (fun k => (a + 1 + k) % n)).length = n ∧
    ((List.range n).map (fun k => (a + 1 + k) % n)).Nodup ∧
    ((List.range n).map (fun k => (a + 1 + k) % n)).Perm (List.range n) ∧
    ((List.range n).map (fun k => (a + 1 + k) % n)).getLast? = some a := by
  have hn : 0 < n := by omega
  have hlen : ((List.range n).map (fun k => (a + 1 + k) % n)).length = n := by
    rw [List.length_map, List.length_range]
  have hlt : ∀ j ∈ (List.range n).map (fun k => (a + 1 + k) % n), j < n := by
    intro j hj
    obtain ⟨k, _, rfl⟩ := List.mem_map.mp hj
    exact Nat.mod_lt _ hn
  have hnd : ((List.range n).map (fun k => (a + 1 + k) % n)).Nodup := by
    apply List.Nodup.map_on _ (List.nodup_range n)
    intro x hx y hy hxy
    exact scan_index_inj (List.mem_range.mp hx) (List.mem_range.mp hy) hxy
  have hperm : ((List.range n).map (fun k => (a + 1 + k) % n)).Perm (List.range n) := by
    apply List.Subperm.perm_of_length_le
    · apply List.subperm_of_subset hnd
      intro j hj
      exact List.mem_range.mpr (hlt j hj)
    · rw [hlen, List.length_range]
  refine ⟨?_, hlt, hlen, hnd, hperm, ?_⟩
  · rw [List.head?_map, List.head?_range, if_neg (by omega)]
    rfl
  · rw [List.getLast?_map, List.getLast?_range, if_neg (by omega)]
    show some ((a + 1 + (n - 1)) % n) = some a
    have h1 : a + 1 + (n - 1) = a + n := by omega
    rw [h1, Nat.add_mod_right, Nat.mod_eq_of_lt ha]

/-- C10.  Let worker `cur`, whose `idx` field is `s` with `s < thread_count = N`,
go through the steal phase, and let the scan run to the end of its loop (no
steal, no break on quiescence).  The indices it looks at are then
`(s+1) % N, (s+2) % N, .., (s+N) % N` in this order: the first is just past
`s`, all lie below `N`, there are `N` of them without repetition, they are a
rearrangement of `0 .. N-1` (every worker once), and the last one is `s`. -/
theorem steal_scan_order (procs : Procs) (trylock : Nat → Nat) (cur : Nat) (s : Exec) (scan : Scan)
    (hs : (s.pool.threads cur).idx < s.pool.thread_count)
    (hscan : tpool_worker_steal procs trylock cur s = some scan)
    (hfull : scan.fin = ScanEnd.full) :
    scan.probes = (List.range s.pool.thread_count).map
      (fun k => ((s.pool.threads cur).idx + 1 + k) % s.pool.thread_count) ∧
    scan.probes.head? = some (((s.pool.threads cur).idx + 1) % s.pool.thread_count) ∧
    (∀ j ∈ scan.probes, j < s.pool.thread_count) ∧
    scan.probes.length = s.pool.thread_count ∧
    scan.probes.Nodup ∧
    scan.probes.Perm (List.range s.pool.thread_count) ∧
    scan.probes.getLast? = some (s.pool.threads cur).idx := by
  have hprobes : scan.probes = (List.range s.pool.thread_count).map
      (fun k => ((s.pool.threads cur).idx + 1 + k) % s.pool.thread_count) := by
    unfold tpool_worker_steal at hscan
    split at hscan
    · cases hscan
      rw [steal_loop_full procs trylock cur _ _ _ _ _ hfull, List.nil_append]
    · cases hscan
  rw [hprobes]
  exact ⟨rfl, scan_order_facts _ _ hs⟩

/-- C10 at a concrete input: worker 1 of three, nothing queued anywhere and one
task outstanding; the scan looks at workers 2, 0, 1. -/
theorem steal_scan_order_witness :
    tpool_worker_steal inert (fun _ => 0) 1 ⟨idle_trio, [], 0⟩
      = some (steal_loop inert (fun _ => 0) 1 3 0 1 ⟨idle_trio, [], 0⟩ []) ∧
    (steal_loop inert (fun _ => 0) 1 3 0 1 ⟨idle_trio, [], 0⟩ []).probes = [2, 0, 1] ∧
    (steal_loop inert (fun _ => 0) 1 3 0 1 ⟨idle_trio, [], 0⟩ []).probes.getLast? = some 1 :=
  ⟨rfl, by decide,
   (steal_scan_order inert (fun _ => 0) 1 ⟨idle_trio, [], 0⟩
     (steal_loop inert (fun _ => 0) 1 3 0 1 ⟨idle_trio, [], 0⟩ []) (by decide) rfl rfl).2.2.2.2.2.2⟩

end Workpool
